import Mathlib

/-!
Verification development for `runtest.py`, the golden-transcript test engine.

The Python source is shallowly embedded: strings are Lean `String`s, Python
lists are Lean `List`s, fallible operations (out-of-range indexing, invalid
regular expressions) return `Option`.  Python's `re` module is modelled by a
small derivative-based regex engine covering exactly the constructs the
script's patterns use (literals, `.`, `\d`, character classes, groups,
alternation, `*`, `+`, `?`, a leading `^`); a pattern outside this subset
fails to compile and the model returns `none` where Python would proceed.
The external command executions (`run_command`, `run_system_command`) are
modelled by an oracle supplying each command's combined output.
-/

set_option maxHeartbeats 4000000
set_option maxRecDepth 4096

namespace RunTest

/-! ## Python string primitives -/

/-- The whitespace set of Python's `str.strip()` / `str.split()` (ASCII part). -/
def pyIsSpace (c : Char) : Bool :=
  c = ' ' || c = '\t' || c = '\n' || c = '\r' || c = '\x0b' || c = '\x0c'

/-- Python `s.strip()`: drop leading and trailing whitespace. -/
def pyStrip (s : String) : String :=
  String.mk (((s.data.dropWhile pyIsSpace).reverse.dropWhile pyIsSpace).reverse)

/-- Python `s.startswith(pfx)` (list-based so the kernel can evaluate it). -/
def strStartsWith (s pfx : String) : Bool :=
  pfx.data.isPrefixOf s.data

/-- Python `s.endswith(sfx)`. -/
def strEndsWith (s sfx : String) : Bool :=
  sfx.data.reverse.isPrefixOf s.data.reverse

/-- Python `s[:-n]` for `0 < n ≤ len(s)`: drop the last `n` characters. -/
def strDropRight (s : String) (n : Nat) : String :=
  String.mk (s.data.take (s.data.length - n))

/-- Python `s.strip('\n')`: drop leading and trailing newline characters. -/
def stripNL (s : String) : String :=
  String.mk (((s.data.dropWhile (· = '\n')).reverse.dropWhile (· = '\n')).reverse)

/-- Line-break characters recognised by Python `str.splitlines`. -/
def pyIsLineBreak (c : Char) : Bool :=
  c = '\n' || c = '\r' || c = '\x0b' || c = '\x0c' ||
  c = '\x1c' || c = '\x1d' || c = '\x1e' ||
  c.toNat = 0x85 || c.toNat = 0x2028 || c.toNat = 0x2029

/-- Auxiliary for `splitlinesKeep`; `acc` holds the current line reversed.
A `"\r\n"` pair is one boundary; any other line-break character is one on
its own. -/
def splitlinesAux : List Char → List Char → List String
  | [], acc => if acc.isEmpty then [] else [String.mk acc.reverse]
  | '\r' :: '\n' :: rest, acc =>
      String.mk (acc.reverse ++ ['\r', '\n']) :: splitlinesAux rest []
  | c :: rest, acc =>
      if pyIsLineBreak c then String.mk (acc.reverse ++ [c]) :: splitlinesAux rest []
      else splitlinesAux rest (c :: acc)

/-- Python `s.splitlines(True)`: split into lines keeping the line breaks. -/
def splitlinesKeep (s : String) : List String :=
  splitlinesAux s.data []

/-- Auxiliary for `pySplitChar`; `acc` holds the current chunk reversed. -/
def pySplitCharAux (sep : Char) : List Char → List Char → List String
  | [], acc => [String.mk acc.reverse]
  | c :: rest, acc =>
      if c = sep then String.mk acc.reverse :: pySplitCharAux sep rest []
      else pySplitCharAux sep rest (c :: acc)

/-- Python `s.split(sep)` for a single-character separator (keeps empty parts). -/
def pySplitChar (sep : Char) (s : String) : List String :=
  pySplitCharAux sep s.data []

/-- Auxiliary for `pySplitWs`. -/
def pySplitWsAux : List Char → List Char → List String
  | [], acc => if acc.isEmpty then [] else [String.mk acc.reverse]
  | c :: rest, acc =>
      if pyIsSpace c then
        if acc.isEmpty then pySplitWsAux rest []
        else String.mk acc.reverse :: pySplitWsAux rest []
      else pySplitWsAux rest (c :: acc)

/-- Python `s.split()` with no argument: split on whitespace runs, no empties. -/
def pySplitWs (s : String) : List String :=
  pySplitWsAux s.data []

/-- Python `s.split(':', 1)`: split at the first colon only. -/
def pySplitColonOnce (s : String) : List String :=
  let pre := s.data.takeWhile (· ≠ ':')
  let post := s.data.dropWhile (· ≠ ':')
  match post with
  | [] => [s]
  | _ :: rest => [String.mk pre, String.mk rest]

/-- Python `needle in hay` substring test. -/
def strContains (hay needle : String) : Bool :=
  (List.range (hay.data.length + 1)).any fun i =>
    needle.data.isPrefixOf (hay.data.drop i)

/-- Python `s.find(sub, start)`: lowest index `≥ start` where `sub` occurs,
`-1` when there is none.  A negative `start` counts from the end. -/
def pyFind (s sub : String) (start : Int) : Int :=
  let n := s.data.length
  let st : Nat := if start < 0 then (max ((n : Int) + start) 0).toNat else start.toNat
  match ((List.range (n + 1)).filter fun j =>
      st ≤ j && sub.data.isPrefixOf (s.data.drop j)).head? with
  | some j => (j : Int)
  | none => -1

/-- Python slice `s[a:b]` with integer bounds (negative indices wrap). -/
def pySlice (s : String) (a b : Int) : String :=
  let n : Int := s.data.length
  let ia : Int := if a < 0 then max (n + a) 0 else min a n
  let ib : Int := if b < 0 then max (n + b) 0 else min b n
  String.mk ((s.data.drop ia.toNat).take (ib - ia).toNat)

/-- `itertools.zip_longest` with `fillvalue=''`. -/
def zipLongest : List String → List String → List (String × String)
  | [], ys => ys.map fun y => ("", y)
  | x :: xs, [] => (x, "") :: zipLongest xs []
  | x :: xs, y :: ys => (x, y) :: zipLongest xs ys

/-- Traverse a list with a fallible function (a structurally recursive
`mapM` over `Option`, so the kernel can evaluate it and proofs can unfold
it). -/
def mapO {α β : Type} (f : α → Option β) : List α → Option (List β)
  | [] => some []
  | x :: xs =>
      match f x with
      | none => none
      | some y => (mapO f xs).map (y :: ·)

/-- Fold a list with a fallible function (structural `foldlM` over
`Option`). -/
def foldO {α β : Type} (f : β → α → Option β) : β → List α → Option β
  | b, [] => some b
  | b, x :: xs =>
      match f b x with
      | none => none
      | some b' => foldO f b' xs

/-- Iterating a Python string yields its characters as one-character strings;
this is what `lines[0:0] = some_string` splices into the list. -/
def explodeChars (ls : List String) : List String :=
  (ls.map fun l => l.data.map Char.toString).flatten

/-! ## The regex engine modelling Python `re`

Only existence of a match matters to the script (`re.match(p, s) is not None`
and `re.search(p, s)` used as booleans), so a Brzozowski-derivative matcher
suffices.  `re.match` anchors at the start of the string and accepts when some
prefix matches; `re.search` accepts when a match starts at any position. -/

inductive Regex where
  | emp
  | eps
  | chr (c : Char)
  | dot
  | digit
  | oneOf (cs : List Char)
  | seq (r₁ r₂ : Regex)
  | alt (r₁ r₂ : Regex)
  | star (r : Regex)
  deriving DecidableEq, Repr

namespace Regex

/-- Does the regex accept the empty string? -/
def nullable : Regex → Bool
  | emp => false
  | eps => true
  | chr _ => false
  | dot => false
  | digit => false
  | oneOf _ => false
  | seq r₁ r₂ => nullable r₁ && nullable r₂
  | alt r₁ r₂ => nullable r₁ || nullable r₂
  | star _ => true

/-- Brzozowski derivative with respect to one character.  As in Python,
`.` does not match a newline and `\d` matches a decimal digit. -/
def deriv : Regex → Char → Regex
  | emp, _ => emp
  | eps, _ => emp
  | chr c, a => if a = c then eps else emp
  | dot, a => if a = '\n' then emp else eps
  | digit, a => if a.isDigit then eps else emp
  | oneOf cs, a => if cs.contains a then eps else emp
  | seq r₁ r₂, a =>
      if nullable r₁ then alt (seq (deriv r₁ a) r₂) (deriv r₂ a)
      else seq (deriv r₁ a) r₂
  | alt r₁ r₂, a => alt (deriv r₁ a) (deriv r₂ a)
  | star r, a => seq (deriv r a) (star r)

/-- Does some prefix of the character list match the regex?  This is
`re.match(r, s) is not None`. -/
def matchesFrom (r : Regex) : List Char → Bool
  | [] => nullable r
  | c :: cs => nullable r || matchesFrom (deriv r c) cs

/-- Does a match start at some position?  This is `re.search(r, s)` as a
boolean. -/
def search (r : Regex) : List Char → Bool
  | [] => nullable r
  | c :: cs => matchesFrom r (c :: cs) || search r cs

end Regex

/-- `re.match(r, s) is not None`. -/
def reMatch (r : Regex) (s : String) : Bool :=
  Regex.matchesFrom r s.data

/-- `re.search(r, s)` as a boolean. -/
def reSearch (r : Regex) (s : String) : Bool :=
  Regex.search r s.data

/-! ### The pattern compiler

A recursive-descent parser for the subset of Python regex syntax the script
uses.  `none` signals a pattern outside the subset (where Python would either
raise `re.error` or apply semantics this model does not cover). -/

namespace RegexParse

/-- Parse one `[...]` character class body (plain characters only, terminated
by `]`).  Returns the characters and the rest of the input. -/
def parseClass : List Char → Option (List Char × List Char)
  | [] => none
  | ']' :: rest => some ([], rest)
  | '\\' :: _ => none
  | '^' :: _ => none
  | '-' :: _ => none
  | c :: rest => do
    let (cs, rest') ← parseClass rest
    pure (c :: cs, rest')

/-- Apply postfix repetition operators to a parsed atom. -/
def parsePostfixOps (a : Regex) : List Char → Regex × List Char
  | '*' :: rest => (Regex.star a, rest)
  | '+' :: rest => (Regex.seq a (Regex.star a), rest)
  | '?' :: rest => (Regex.alt Regex.eps a, rest)
  | rest => (a, rest)

/-- The recursive-descent parser, structurally recursive on its fuel so the
kernel can evaluate it.  `level` selects the grammar production: `0` parses
an alternation `seq ('|' seq)*`, `1` a sequence of postfixed atoms (stopping
at `|`, `)` or the end), any other value one atom (a group, a class, an
escape, `.`, or a literal character). -/
def parseR : Nat → Nat → List Char → Option (Regex × List Char)
  | 0, _, _ => none
  | fuel + 1, 0, input => do
      let (r, rest) ← parseR fuel 1 input
      match rest with
      | '|' :: rest' => do
          let (r', rest'') ← parseR fuel 0 rest'
          pure (Regex.alt r r', rest'')
      | _ => pure (r, rest)
  | fuel + 1, 1, input =>
      match input with
      | [] => some (Regex.eps, [])
      | '|' :: _ => some (Regex.eps, input)
      | ')' :: _ => some (Regex.eps, input)
      | _ => do
        let (a, rest) ← parseR fuel 2 input
        let (a', rest') := parsePostfixOps a rest
        let (r, rest'') ← parseR fuel 1 rest'
        match r with
        | Regex.eps => pure (a', rest'')
        | _ => pure (Regex.seq a' r, rest'')
  | fuel + 1, _, input =>
      match input with
      | [] => none
      | '(' :: rest => do
          let (r, rest') ← parseR fuel 0 rest
          match rest' with
          | ')' :: rest'' => pure (r, rest'')
          | _ => none
      | '[' :: rest => do
          let (cs, rest') ← parseClass rest
          pure (Regex.oneOf cs, rest')
      | '\\' :: c :: rest =>
          if c = 'd' then pure (Regex.digit, rest)
          else if c.isAlphanum then none
          else pure (Regex.chr c, rest)
      | '\\' :: [] => none
      | '.' :: rest => pure (Regex.dot, rest)
      | '*' :: _ => none
      | '+' :: _ => none
      | '?' :: _ => none
      | '^' :: _ => none
      | '$' :: _ => none
      | '{' :: _ => none
      | '}' :: _ => none
      | c :: rest => pure (Regex.chr c, rest)

end RegexParse

/-- Compile a Python pattern string (supported subset; a leading `^` is
redundant under `re.match` and is dropped). -/
def compilePat (p : String) : Option Regex :=
  let cs := match p.data with
    | '^' :: rest => rest
    | cs => cs
  match RegexParse.parseR (4 * cs.length + 4) 0 cs with
  | some (r, []) => some r
  | _ => none

/-- `re.search(pattern_string, s)` for the constant patterns the script
embeds; `false` on an unsupported pattern (unreachable for those constants). -/
def searchStr (p s : String) : Bool :=
  match compilePat p with
  | some r => reSearch r s
  | none => false

/-! ## Line classification (`runtest.py` lines 72-86) -/

/-- `is_ignorable`: a blank line or a comment line. -/
def is_ignorable (line : String) : Bool :=
  (pyStrip line).data.length = 0 || strStartsWith line "#"

/-- `generates_table`. -/
def generates_table (line : String) : Bool :=
  strStartsWith line "$ ndcli list" || strStartsWith line "$ ndcli dump zone" ||
  strStartsWith line "$ ndcli history"

/-- `generates_map`. -/
def generates_map (line : String) : Bool :=
  strStartsWith line "$ ndcli show" || strStartsWith line "$ ndcli modify rr" ||
  searchStr "(get|mark) (ip|delegation)" line ||
  searchStr "ndcli create rr .* from" line

/-- `is_pdns_query`. -/
def is_pdns_query (line : String) : Bool :=
  strContains line "dig" || strContains line "drill"

/-! ## Cells and rows

An expected-table cell is either a literal string or a compiled pattern
(`add_regex` replaces some cells with `re.compile(...)` objects).  Actual
tables always hold plain strings. -/

inductive Cell where
  | lit (s : String)
  | pat (r : Regex)
  deriving DecidableEq, Repr

/-- View a plain string table as an all-literal cell table. -/
def toCellTable (t : List (List String)) : List (List Cell) :=
  t.map fun row => row.map Cell.lit

/-- One cell of `match_table.match`: literal equality for a string cell,
anchored `re.match` for a pattern cell. -/
def cellMatch (actualCell : String) : Cell → Bool
  | Cell.lit s => s = actualCell
  | Cell.pat r => reMatch r actualCell

/-- `match_table.match`: equal lengths and every cell accepted. -/
def rowMatch (row : List String) (info : List Cell) : Bool :=
  row.length = info.length &&
  (List.zip row info).all fun p => cellMatch p.1 p.2

/-! ## `process_command` (lines 155-172) -/

/-- Code-point lexicographic strict order on character lists: Python's
string comparison. -/
def strLtb : List Char → List Char → Bool
  | [], [] => false
  | [], _ :: _ => true
  | _ :: _, [] => false
  | a :: as, b :: bs =>
      if a < b then true
      else if b < a then false
      else strLtb as bs

/-- Python `list.sort()` on strings: stable sort, lexicographic by code
point (`a ≤ b` iff not `b < a`). -/
def pySortStr (l : List String) : List String :=
  l.insertionSort fun a b => strLtb b.data a.data = false

/-- The body of `process_command`'s loop for one `zip_longest` pair: returns
the line written to the output and whether the position passed.  `none`
models a pattern this regex model cannot compile. -/
def processPair (actual expectedLine : String) : Option (String × Bool) :=
  let expected := stripNL expectedLine
  if strEndsWith expected " re" then
    match compilePat (strDropRight expected 3) with
    | none => none
    | some r =>
      if reMatch r actual then some (expected ++ "\n", true)
      else some (actual ++ "\n", false)
  else some (actual ++ "\n", actual = expected)

/-- `process_command`: returns the lines written to `out` and the `passed`
flag. -/
def process_command (actual_output expected_output : List String)
    (sort_before : Bool) : Option (List String × Bool) :=
  let a := if sort_before then pySortStr actual_output else actual_output
  let e := if sort_before then pySortStr expected_output else expected_output
  (mapO (fun p => processPair p.1 p.2) (zipLongest a e)).map fun outs =>
    (outs.map Prod.fst, outs.all Prod.snd)

/-! ## `table_from_lines` (lines 175-212) -/

/-- Column offsets of the fixed-width shape: each header token's position is
found by substring search starting just past the previous header's offset. -/
def headerOffsets (headerLine : String) : List Int :=
  (pySplitWs headerLine).foldl
    (fun offs h =>
      let startFind : Int := match offs.getLast? with
        | some o => o + 1
        | none => 0
      offs ++ [pyFind headerLine h startFind])
    []

/-- Slice one line at the given column offsets (`row = [''] * len(offsets)`
followed by the guarded assignments). -/
def sliceRow (line : String) (offsets : List Int) : List String :=
  (List.range offsets.length).map fun col =>
    let offset := offsets.getD col 0
    if offset < (line.data.length : Int) then
      let nextOffset : Int :=
        if col < offsets.length - 1 then
          min (offsets.getD (col + 1) 0) (line.data.length : Int)
        else (line.data.length : Int)
      pyStrip (pySlice line offset nextOffset)
    else ""

/-- `table_from_lines`: map shape, raw tab-delimited shape, or fixed-width
header-aligned shape, selected from the command text. -/
def table_from_lines (lines : List String) (cmd : String) : List (List String) :=
  if generates_map cmd then
    (lines.filter fun l => !is_ignorable l).map pySplitColonOnce
  else if strContains cmd " -H" || strContains cmd "dump zone" then
    (lines.filter fun l => !is_ignorable l).map (pySplitChar '\t')
  else
    let rest := lines.dropWhile is_ignorable
    match rest with
    | [] => []
    | l₀ :: _ =>
      let offsets := headerOffsets l₀
      (rest.filter fun l => !is_ignorable l).map fun l => sliceRow l offsets

/-! ## `add_regex` (lines 215-273)

Each Python in-place row mutation becomes a functional update; a Python
`IndexError`/`TypeError` (short row, regex object where a string is needed)
becomes `none`. -/

/-- `row[i] = c` (fails like Python when `i` is out of range). -/
def setCell (row : List Cell) (i : Nat) (c : Cell) : Option (List Cell) :=
  if i < row.length then some (row.set i c) else none

/-- `row[-1] = c`. -/
def setLastCell (row : List Cell) (c : Cell) : Option (List Cell) :=
  match row with
  | [] => none
  | _ => some (row.set (row.length - 1) c)

/-- `add_regex.check_regexes`: compile the templates, then replace `row[0]`
with the first template that `re.search`-matches it. -/
def check_regexes (table : List (List Cell)) (regexes : List String) :
    Option (List (List Cell)) := do
  let rs ← mapO compilePat regexes
  mapO (fun row => do
    let c0 ← row.get? 0
    let s ← match c0 with
      | Cell.lit s => some s
      | Cell.pat _ => none
    match rs.find? fun r => reSearch r s with
    | some r => setCell row 0 (Cell.pat r)
    | none => pure row) table

/-- `list zone .* keys` rule, first occurrence (line 231). -/
def ruleKeys1 (row : List Cell) : Option (List Cell) := do
  let r0 ← compilePat ".*_[zk]sk_.*"
  let r2 ← compilePat "\\d*"
  let r5 ← compilePat ".*"
  let row ← setCell row 0 (Cell.pat r0)
  let row ← setCell row 2 (Cell.pat r2)
  setCell row 5 (Cell.pat r5)

/-- `list zone .* dnskeys` rule (line 236). -/
def ruleDnskeys (row : List Cell) : Option (List Cell) := do
  let r0 ← compilePat "\\d*"
  let r1 ← compilePat "\\d*"
  let r3 ← compilePat ".*"
  let row ← setCell row 0 (Cell.pat r0)
  let row ← setCell row 1 (Cell.pat r1)
  setCell row 3 (Cell.pat r3)

/-- `list zone .* keys` rule, second occurrence (line 241). -/
def ruleKeys2 (row : List Cell) : Option (List Cell) := do
  let r0 ← compilePat ".*"
  let r2 ← compilePat "\\d*"
  let r5 ← compilePat ".*"
  let row ← setCell row 0 (Cell.pat r0)
  let row ← setCell row 2 (Cell.pat r2)
  setCell row 5 (Cell.pat r5)

/-- `list zone .* ds` rule, applied to `table[1:]` (line 246). -/
def ruleDs (row : List Cell) : Option (List Cell) := do
  let r0 ← compilePat "\\d*"
  let r2 ← compilePat "\\d"
  let r3 ← compilePat ".*"
  let row ← setCell row 0 (Cell.pat r0)
  let row ← setCell row 2 (Cell.pat r2)
  setCell row 3 (Cell.pat r3)

/-- SOA/DS rewriting for zone and rr listings (line 251). -/
def ruleRR (row : List Cell) : Option (List Cell) :=
  foldO
    (fun r rc =>
      if rc + 1 < r.length then do
        let c ← r.get? rc
        if c = Cell.lit "SOA" then do
          let next ← r.get? (rc + 1)
          let s ← match next with
            | Cell.lit s => some s
            | Cell.pat _ => none
          let stuff := pySplitWs s
          let a ← stuff.get? 0
          let b ← stuff.get? 1
          let rx ← compilePat (a ++ " " ++ b ++ " \\d+ \\d+ \\d+ \\d+ \\d+")
          setCell r (rc + 1) (Cell.pat rx)
        else if c = Cell.lit "DS" then do
          let rx ← compilePat "\\d+ 8 2 .*"
          setCell r (rc + 1) (Cell.pat rx)
        else pure r
      else pure r)
    row [2, 3, 4]

/-- History listings rule (line 260). -/
def ruleHistory (row : List Cell) : Option (List Cell) := do
  let c0 ← row.get? 0
  let row ← if c0 ≠ Cell.lit "timestamp" then do
      let rx ← compilePat ".*"
      setCell row 0 (Cell.pat rx)
    else pure row
  let last ← row.getLast?
  let sw ← match last with
    | Cell.lit s => some (strStartsWith s "set_attr serial=")
    | Cell.pat _ => none
  let row ← if sw then do
      let rx ← compilePat "set_attr serial=\\d+"
      setLastCell row (Cell.pat rx)
    else pure row
  let c4 ← row.get? 4
  if c4 = Cell.lit "key" then do
    let rx ← compilePat ".*"
    setCell row 5 (Cell.pat rx)
  else pure row

/-- `add_regex`: annotate an expected table with patterns keyed off the
command text. -/
def add_regex (table : List (List Cell)) (cmd : String) :
    Option (List (List Cell)) :=
  if generates_map cmd then
    mapO (fun row => do
      let c0 ← row.get? 0
      if c0 = Cell.lit "created" || c0 = Cell.lit "modified" then do
        let rx ← compilePat ".*"
        setCell row 1 (Cell.pat rx)
      else if c0 = Cell.lit "created_by" || c0 = Cell.lit "modified_by" then do
        let rx ← compilePat ".*"
        setCell row 1 (Cell.pat rx)
      else pure row) table
  else if generates_table cmd then do
    let t ← if searchStr "list zone .* keys" cmd then mapO ruleKeys1 table
            else pure table
    let t ← if searchStr "list zone .* dnskeys" cmd then mapO ruleDnskeys t
            else pure t
    let t ← if searchStr "list zone .* keys" cmd then mapO ruleKeys2 t
            else pure t
    let t ← if searchStr "list zone .* ds" cmd then
        match t with
        | [] => pure ([] : List (List Cell))
        | h :: rest => do
          let rest' ← mapO ruleDs rest
          pure (h :: rest')
      else pure t
    if strContains cmd "dcli list zone" || strContains cmd "dcli dump zone" ||
        strContains cmd "dcli list rrs" then
      mapO ruleRR t
    else if strContains cmd "dcli history" then
      mapO ruleHistory t
    else pure t
  else if strContains cmd "dnssec enable" || strContains cmd "dnssec new" then
    check_regexes table
      [".*Created key .*_[zk]sk_.* for zone (.*)",
       ".*Creating RR .* DS \\d+ 8 2 .* in zone .*"]
  else if strContains cmd "dnssec disable" || strContains cmd "dnssec delete" ||
      strContains cmd "delete zone" then
    check_regexes table [".*Deleting RR .* DS \\d+ 8 2 .* from zone .*"]
  else
    pure table

/-! ## `match_table` (lines 276-301) -/

/-- The inner scan of `match_table`: the first expected row, in declaration
order, that is not yet matched and accepts the actual row. -/
def findMatch (row : List String) : List (List Cell) → List Nat → Nat → Option Nat
  | [], _, _ => none
  | info :: rest, used, e =>
      if !used.contains e && rowMatch row info then some e
      else findMatch row rest used (e + 1)

/-- The greedy matching loop of `match_table`, accumulating the `matched`
map as an association list in key order. -/
def buildMatchedAux (expected : List (List Cell)) :
    List (List String) → Nat → List (Nat × Nat) → List (Nat × Nat)
  | [], _, acc => acc
  | row :: rows, no, acc =>
      match findMatch row expected (acc.map Prod.snd) 0 with
      | some e => buildMatchedAux expected rows (no + 1) (acc ++ [(no, e)])
      | none => buildMatchedAux expected rows (no + 1) acc

/-- `matched`: the greedy map from actual-row index to expected-row index. -/
def buildMatched (actual : List (List String)) (expected : List (List Cell)) :
    List (Nat × Nat) :=
  buildMatchedAux expected actual 0 []

/-- The output loop of `match_table`: walk the raw actual lines, substituting
a pending expected raw line at matched positions.  `none` models popping from
an empty list (unreachable from `match_table`). -/
def emitLoop (matched : List (Nat × Nat)) :
    Nat → List String → List String → Option (List String)
  | _, [], _ => some []
  | no, row :: rest, em =>
      if matched.any fun p => p.1 = no then
        match em with
        | [] => none
        | e :: em' => (emitLoop matched (no + 1) rest em').map (e :: ·)
      else (emitLoop matched (no + 1) rest em).map (row :: ·)

/-- Python `sorted` on naturals. -/
def pySortedNat (l : List Nat) : List Nat :=
  l.insertionSort (· ≤ ·)

/-- `match_table`: greedy row matching plus output reconciliation.  `none`
models the `IndexError` Python raises when `expected_raw` is shorter than the
expected table (which cannot happen for the arguments `run_test` passes). -/
def match_table (actual_table : List (List String))
    (expected_table : List (List Cell))
    (actual_raw expected_raw : List String) : Option (List String) := do
  let matched := buildMatched actual_table expected_table
  let expected_matched ←
    mapO (fun i => expected_raw.get? i) (pySortedNat (matched.map Prod.snd))
  emitLoop matched 0 actual_raw expected_matched

/-! ## The transcript driver `run_test` (lines 304-399)

The external effects (`run_command` / `_ndcli`, `run_system_command`) are
abstracted into an oracle; everything else — echoing, heredoc collection,
expected-block collection with its character-splicing pushback, dispatch and
output composition — is modelled directly.  The loop takes fuel because the
pushback can lengthen the line list; every theorem about it is conditioned
on the loop returning a value. -/

/-- The command-execution collaborators of the driver. -/
structure Oracle where
  runCommand : String → Option String → String
  runSystem : String → List String

/-- `split_cat_command`: the heredoc terminator and the command rebuilt from
the text after the first pipe (`none` models the `IndexError` when there is
no pipe, unreachable under the `$ cat <<EOF | ndcli` prefix). -/
def split_cat_command (line : String) : Option (String × String) :=
  match (pySplitChar '|' line).get? 1 with
  | some part => some ("EOF", "$" ++ part)
  | none => none

/-- `get_cat_input`: pop lines up to the terminator, echoing every popped
line.  Returns the collected input, the echoed lines and the remainder. -/
def get_cat_input (lines : List String) (word : String) :
    String × List String × List String :=
  match lines with
  | [] => ("", [], [])
  | l :: ls =>
      if l = word ++ "\n" then ("", [l], ls)
      else
        let (inp, echo, rest) := get_cat_input ls word
        (l ++ inp, l :: echo, rest)

/-- The expected-block collection loop: pop lines until the next directive. -/
def takeBlock (lines : List String) : List String × List String :=
  match lines with
  | [] => ([], [])
  | l :: ls =>
      if strStartsWith l "$ " then ([], l :: ls)
      else
        let (b, r) := takeBlock ls
        (l :: b, r)

/-- Split a block into its kept prefix and its maximal ignorable suffix. -/
def splitTrailingIgnorable (block : List String) : List String × List String :=
  ((block.reverse.dropWhile is_ignorable).reverse,
   (block.reverse.takeWhile is_ignorable).reverse)

/-- Lines 367-371: collect `expected_result`, then push every trailing
ignorable line back onto the cursor.  `lines[0:0] = expected_result.pop()`
splices the popped line's characters as individual one-character strings. -/
def collectExpected (lines : List String) : List String × List String :=
  let (block, rest) := takeBlock lines
  let (kept, trailing) := splitTrailingIgnorable block
  (kept, explodeChars trailing ++ rest)

/-- The expected table the driver builds for an ndcli directive
(lines 375-380, expected side). -/
def expectedTableFor (exp : List String) (line : String) : List (List Cell) :=
  if generates_table line || generates_map line then
    toCellTable (table_from_lines (exp.map stripNL) line)
  else
    exp.map fun x => [Cell.lit x]

/-- The actual table the driver builds for an ndcli directive
(lines 375-380, actual side). -/
def actualTableFor (result : String) (line : String) : List (List String) :=
  if generates_table line || generates_map line then
    table_from_lines (pySplitChar '\n' result) line
  else
    (splitlinesKeep result).map fun x => [x]

/-- The main driver loop of `run_test` (without the external PDNS checks and
with `stop_on_error` off): returns the chunks written to the output file. -/
def run_test_loop (oracle : Oracle) : Nat → List String → Option (List String)
  | 0, _ => none
  | _, [] => some []
  | fuel + 1, line₀ :: rest₀ => do
      let (line, catEcho, cmd_input, rest₁) ←
        if strStartsWith line₀ "$ cat <<EOF | ndcli" then
          match split_cat_command line₀ with
          | none => none
          | some (word, line') =>
              let (inp, echo, rest) := get_cat_input rest₀ word
              some (line', echo, some inp, rest)
        else
          some (line₀, ([] : List String), (none : Option String), rest₀)
      if strStartsWith line "$ " then
        let (expected_result, rest₂) := collectExpected rest₁
        if strStartsWith line "$ ndcli" then
          let result := oracle.runCommand line cmd_input
          let expected_table ← add_regex (expectedTableFor expected_result line) line
          let output ← match_table (actualTableFor result line) expected_table
            (splitlinesKeep result) expected_result
          let tail ← run_test_loop oracle fuel rest₂
          pure (line₀ :: (catEcho ++ output ++ tail))
        else
          let stripped := stripNL line
          let result := oracle.runSystem (String.mk (stripped.data.drop 2))
          let (out, _passed) ←
            process_command result expected_result (is_pdns_query stripped)
          let tail ← run_test_loop oracle fuel rest₂
          pure (line₀ :: (catEcho ++ out ++ tail))
      else
        let tail ← run_test_loop oracle fuel rest₁
        pure (line₀ :: (catEcho ++ tail))

/-- `run_test` without `stop_on_error`/PDNS: the final `diff` — the test
passes iff the bytes written equal the input transcript's bytes. -/
def run_test (oracle : Oracle) (fuel : Nat) (lines : List String) : Option Bool :=
  (run_test_loop oracle fuel lines).map fun out =>
    String.join out == String.join lines

/-! ## Auxiliary notions used by the theorems -/

/-- How many of the positions `no, no+1, …, no+i-1` are matched keys: the
rank of position `no+i` among the matched positions. -/
def keyHits (matched : List (Nat × Nat)) : Nat → Nat → Nat
  | _, 0 => 0
  | no, i + 1 =>
      (if matched.any fun p => p.1 = no then 1 else 0) + keyHits matched (no + 1) i

/-- How many matched pairs have key `≥ no`. -/
def remKeys (no : Nat) : List (Nat × Nat) → Nat
  | [] => 0
  | p :: ps => (if no ≤ p.1 then 1 else 0) + remKeys no ps

/-- The identity matching `[(0,0), …, (n-1,n-1)]`. -/
def idPairs (n : Nat) : List (Nat × Nat) :=
  (List.range n).map fun i => (i, i)

/-- A clean transcript line: nonempty, ends with `'\n'`, and contains no
other line-break character.  This is the shape every line produced by
text-mode `readlines` has (universal newline translation removes `'\r'`),
except possibly an unterminated final line. -/
def cleanLine (s : String) : Bool :=
  !s.data.isEmpty && s.data.getLast? == some '\n' &&
  s.data.dropLast.all fun c => !pyIsLineBreak c

/-- Every row of the actual table is accepted by the expected-table row of
the same index: the annotated expected table still matches the very rows it
was derived from. -/
def selfMatches (T : List (List String)) (et : List (List Cell)) : Bool :=
  decide (T.length ≤ et.length) && (List.zip T et).all fun p => rowMatch p.1 p.2

/-- A transcript/oracle pair on which `run_test` is byte-preserving: every
expected-block line is clean; every ndcli directive (plain or heredoc)
produces exactly the text of its collected expected block, and its regex
annotation succeeds and yields a table whose every row still accepts its own
recorded row (so annotation may fire, as it does for `dump zone` SOA rows or
`show` created/modified rows, as long as the patterns match the very values
they replaced); every shell directive's output is the expected block's
stripped lines and, if it is a dig/drill query (whose comparison sorts both
sides in place), its stripped block is already sorted and holds no `" re"`
pattern line. -/
inductive Good (oracle : Oracle) : List String → Prop where
  | nil : Good oracle []
  | echo (l : String) (rest : List String) :
      strStartsWith l "$ cat <<EOF | ndcli" = false →
      strStartsWith l "$ " = false →
      Good oracle rest →
      Good oracle (l :: rest)
  | ndcli (l : String) (rest exp rest' : List String) (et : List (List Cell)) :
      strStartsWith l "$ cat <<EOF | ndcli" = false →
      strStartsWith l "$ " = true →
      strStartsWith l "$ ndcli" = true →
      collectExpected rest = (exp, rest') →
      (∀ x ∈ exp, cleanLine x = true) →
      oracle.runCommand l none = String.join exp →
      add_regex (expectedTableFor exp l) l = some et →
      selfMatches (actualTableFor (String.join exp) l) et = true →
      Good oracle rest' →
      Good oracle (l :: rest)
  | shell (l : String) (rest exp rest' : List String) :
      strStartsWith l "$ cat <<EOF | ndcli" = false →
      strStartsWith l "$ " = true →
      strStartsWith l "$ ndcli" = false →
      collectExpected rest = (exp, rest') →
      (∀ x ∈ exp, cleanLine x = true) →
      oracle.runSystem (String.mk ((stripNL l).data.drop 2)) = exp.map stripNL →
      (is_pdns_query (stripNL l) = true →
        pySortStr (exp.map stripNL) = exp.map stripNL ∧
        ∀ x ∈ exp, strEndsWith (stripNL x) " re" = false) →
      Good oracle rest' →
      Good oracle (l :: rest)
  | cat (l : String) (rest : List String) (word line' inp : String)
      (echoed rest₁ exp rest' : List String) (et : List (List Cell)) :
      strStartsWith l "$ cat <<EOF | ndcli" = true →
      split_cat_command l = some (word, line') →
      get_cat_input rest word = (inp, echoed, rest₁) →
      strStartsWith line' "$ " = true →
      strStartsWith line' "$ ndcli" = true →
      collectExpected rest₁ = (exp, rest') →
      (∀ x ∈ exp, cleanLine x = true) →
      oracle.runCommand line' (some inp) = String.join exp →
      add_regex (expectedTableFor exp line') line' = some et →
      selfMatches (actualTableFor (String.join exp) line') et = true →
      Good oracle rest' →
      Good oracle (l :: rest)

/-! ## Concrete transcripts used as counterexamples and witnesses -/

/-- A transcript whose one directive is a `list zone … ds` listing; the
expected block was written so that the annotation's `\d`-pattern rejects one
of its own data rows. -/
def dsLines : List String :=
  ["$ ndcli list zone z ds\n", "C0 C1 C2 C3\n", "a  B  x  d\n", "q  B  7  z\n"]

/-- An oracle whose output for that directive is byte-identical to the
recorded expected block. -/
def dsOracle : Oracle where
  runCommand := fun l _ =>
    if l = "$ ndcli list zone z ds\n" then "C0 C1 C2 C3\na  B  x  d\nq  B  7  z\n"
    else ""
  runSystem := fun _ => []

/-- A `show` transcript whose created/modified annotation fires: the value
cells become `.*` patterns, which still accept the recorded values. -/
def showLines : List String :=
  ["$ ndcli show zone z\n", "created: 2020-01-01 10:00:00\n",
   "modified: 2020-01-01 10:00:00\n"]

/-- An oracle echoing exactly the expected block of `showLines`. -/
def showOracle : Oracle where
  runCommand := fun l _ =>
    if l = "$ ndcli show zone z\n" then
      "created: 2020-01-01 10:00:00\nmodified: 2020-01-01 10:00:00\n"
    else ""
  runSystem := fun _ => []

/-- A shell directive whose expected block's one line is unterminated. -/
def nlLines : List String := ["$ true\n", "ok"]

/-- An oracle whose shell output equals that block's (stripped) line. -/
def nlOracle : Oracle where
  runCommand := fun _ _ => ""
  runSystem := fun _ => ["ok"]

/-- A dig query whose recorded block is not sorted. -/
def digLines : List String := ["$ dig x\n", "b\n", "a\n"]

/-- An oracle whose dig output lines equal the recorded block's lines. -/
def digOracle : Oracle where
  runCommand := fun _ _ => ""
  runSystem := fun _ => ["b", "a"]

/-- An ndcli directive whose expected line holds an interior `'\r'`. -/
def crLines : List String := ["$ ndcli show x\n", "a\rb\n"]

/-- An oracle whose output is byte-identical to that block. -/
def crOracle : Oracle where
  runCommand := fun l _ => if l = "$ ndcli show x\n" then "a\rb\n" else ""
  runSystem := fun _ => []

/-! ## Basic lemmas: strings, `String.join`, `mapO` -/

theorem strMk_append (a b : List Char) : String.mk a ++ String.mk b = String.mk (a ++ b) :=
  rfl

theorem join_foldl (l : List String) : ∀ a : String,
    List.foldl (· ++ ·) a l = a ++ String.join l := by
  induction l with
  | nil => intro a; simp [String.join]
  | cons x xs ih =>
      intro a
      have h1 : List.foldl (· ++ ·) a (x :: xs) = List.foldl (· ++ ·) (a ++ x) xs := rfl
      have h2 : String.join (x :: xs) = List.foldl (· ++ ·) ("" ++ x) xs := rfl
      rw [h1, ih (a ++ x), h2, ih ("" ++ x)]
      simp [String.append_assoc]

theorem join_cons (a : String) (l : List String) :
    String.join (a :: l) = a ++ String.join l := by
  show List.foldl (· ++ ·) ("" ++ a) l = _
  rw [join_foldl]
  simp

theorem join_append (l₁ l₂ : List String) :
    String.join (l₁ ++ l₂) = String.join l₁ ++ String.join l₂ := by
  induction l₁ with
  | nil => simp [String.join]
  | cons x xs ih => simp only [List.cons_append, join_cons, ih, String.append_assoc]

theorem join_explode_one (l : String) :
    String.join (l.data.map Char.toString) = l := by
  conv_rhs => rw [show l = String.mk l.data from rfl]
  induction l.data with
  | nil => rfl
  | cons c cs ih =>
      simp only [List.map_cons, join_cons, ih]
      exact strMk_append [c] cs

theorem join_explodeChars (l : List String) :
    String.join (explodeChars l) = String.join l := by
  induction l with
  | nil => rfl
  | cons x xs ih =>
      simp only [explodeChars, List.map_cons, List.flatten_cons, join_append, join_cons]
      rw [show (xs.map fun l => l.data.map Char.toString).flatten = explodeChars xs from rfl,
        ih, join_explode_one]

theorem mapO_length {α β : Type} (f : α → Option β) :
    ∀ {l : List α} {ys : List β}, mapO f l = some ys → ys.length = l.length := by
  intro l
  induction l with
  | nil => intro ys h; cases h; rfl
  | cons x xs ih =>
      intro ys h
      simp only [mapO] at h
      cases hf : f x with
      | none => rw [hf] at h; cases h
      | some y =>
          rw [hf] at h
          cases hm : mapO f xs with
          | none => rw [hm] at h; cases h
          | some ys' =>
              rw [hm] at h
              cases h
              simp [ih hm]

theorem mapO_get? {α β : Type} (f : α → Option β) :
    ∀ {l : List α} {ys : List β}, mapO f l = some ys →
      ∀ i, ys.get? i = (l.get? i).bind f := by
  intro l
  induction l with
  | nil => intro ys h i; cases h; cases i <;> rfl
  | cons x xs ih =>
      intro ys h i
      simp only [mapO] at h
      cases hf : f x with
      | none => rw [hf] at h; cases h
      | some y =>
          rw [hf] at h
          cases hm : mapO f xs with
          | none => rw [hm] at h; cases h
          | some ys' =>
              rw [hm] at h
              cases h
              cases i with
              | zero => simp [hf]
              | succ i => simpa using ih hm i

theorem mapO_total {α β : Type} (f : α → Option β) :
    ∀ (l : List α), (∀ x ∈ l, ∃ y, f x = some y) →
      ∃ ys, mapO f l = some ys := by
  intro l
  induction l with
  | nil => intro _; exact ⟨[], rfl⟩
  | cons x xs ih =>
      intro h
      obtain ⟨y, hy⟩ := h x (List.mem_cons_self x xs)
      obtain ⟨ys, hys⟩ := ih fun z hz => h z (List.mem_cons_of_mem x hz)
      exact ⟨y :: ys, by simp [mapO, hy, hys]⟩

theorem mapO_mem {α β : Type} (f : α → Option β) {l : List α} {ys : List β}
    (h : mapO f l = some ys) {y : β} (hy : y ∈ ys) :
    ∃ x ∈ l, f x = some y := by
  obtain ⟨i, hi⟩ := List.get?_of_mem hy
  have := mapO_get? f h i
  rw [hi] at this
  cases hl : l.get? i with
  | none => rw [hl] at this; cases this
  | some x =>
      rw [hl] at this
      exact ⟨x, List.get?_mem hl, this.symm⟩

/-! ## `process_command`: the regex-suffix convention -/

/-- Destructure a successful `process_command` run into its per-pair
results. -/
theorem process_command_elim {act exp : List String} {sb : Bool}
    {out : List String} {passed : Bool}
    (h : process_command act exp sb = some (out, passed)) :
    ∃ outs, mapO (fun p => processPair p.1 p.2)
        (zipLongest (if sb then pySortStr act else act)
          (if sb then pySortStr exp else exp)) = some outs ∧
      out = outs.map Prod.fst ∧ passed = outs.all Prod.snd := by
  unfold process_command at h
  rw [Option.map_eq_some'] at h
  obtain ⟨outs, h1, h2⟩ := h
  exact ⟨outs, h1, congrArg Prod.fst h2.symm, congrArg Prod.snd h2.symm⟩

theorem processPair_regex_suffix {a e : String}
    (hre : strEndsWith (stripNL e) " re" = true) {y : String × Bool}
    (h : processPair a e = some y) :
    ∃ r, compilePat (strDropRight (stripNL e) 3) = some r ∧
      y = if reMatch r a then (stripNL e ++ "\n", true) else (a ++ "\n", false) := by
  unfold processPair at h
  simp only [hre, if_true] at h
  cases hc : compilePat (strDropRight (stripNL e) 3) with
  | none => rw [hc] at h; cases h
  | some r =>
      rw [hc] at h
      refine ⟨r, rfl, ?_⟩
      cases hm : reMatch r a with
      | true =>
          simp only [hm, if_true] at h ⊢
          exact (Option.some.inj h).symm
      | false =>
          simp only [hm, Bool.false_eq_true, if_false] at h ⊢
          exact (Option.some.inj h).symm

/-! ## The greedy matcher: `findMatch` and `buildMatched` -/

theorem containsNat_iff {l : List Nat} {a : Nat} : l.contains a = true ↔ a ∈ l := by
  simp [List.contains, List.elem_iff]

theorem findMatch_some (row : List String) :
    ∀ (es : List (List Cell)) (used : List Nat) (e j : Nat),
      findMatch row es used e = some j →
      e ≤ j ∧ j - e < es.length ∧ used.contains j = false ∧
      rowMatch row (es.getD (j - e) []) = true ∧
      ∀ k, e ≤ k → k < j →
        used.contains k = true ∨ rowMatch row (es.getD (k - e) []) = false := by
  intro es
  induction es with
  | nil => intro used e j h; cases h
  | cons info rest ih =>
      intro used e j h
      simp only [findMatch] at h
      by_cases hc : (!used.contains e && rowMatch row info) = true
      · rw [if_pos hc] at h
        cases h
        have hc' : used.contains e = false ∧ rowMatch row info = true := by
          simpa [Bool.and_eq_true, Bool.not_eq_true'] using hc
        obtain ⟨h1, h2⟩ := hc'
        refine ⟨le_refl _, by simp, by simpa using h1, by simpa using h2, ?_⟩
        intro k hk1 hk2
        omega
      · rw [if_neg hc] at h
        obtain ⟨hle, hlt, hcont, hmat, hmin⟩ := ih used (e + 1) j h
        have hje : 1 ≤ j - e := by omega
        refine ⟨by omega, by simp; omega, hcont, ?_, ?_⟩
        · have h3 : j - e = (j - (e + 1)) + 1 := by omega
          rw [h3, List.getD_cons_succ]
          exact hmat
        · intro k hk1 hk2
          rcases Nat.eq_or_lt_of_le hk1 with heq | hlt'
          · have hk : k = e := heq.symm
            subst hk
            simp only [Nat.sub_self, List.getD_cons_zero]
            cases hu : used.contains k with
            | true => exact Or.inl rfl
            | false =>
                refine Or.inr ?_
                cases hm : rowMatch row info with
                | false => rfl
                | true =>
                    have hb : (!used.contains k && rowMatch row info) = true := by
                      rw [hu, hm]
                      rfl
                    exact absurd hb hc
          · have h4 := hmin k hlt' hk2
            have h5 : k - e = (k - (e + 1)) + 1 := by omega
            rw [h5, List.getD_cons_succ]
            exact h4

theorem findMatch_spec {row : List String} {expected : List (List Cell)}
    {used : List Nat} {j : Nat}
    (h : findMatch row expected used 0 = some j) :
    j < expected.length ∧ used.contains j = false ∧
    rowMatch row (expected.getD j []) = true ∧
    ∀ k < j, used.contains k = true ∨ rowMatch row (expected.getD k []) = false := by
  obtain ⟨_, hlt, hcont, hmat, hmin⟩ := findMatch_some row expected used 0 j h
  exact ⟨by simpa using hlt, hcont, by simpa using hmat,
    fun k hk => by simpa using hmin k (Nat.zero_le k) hk⟩

theorem findMatch_none (row : List String) :
    ∀ (es : List (List Cell)) (used : List Nat) (e : Nat),
      (∀ m < es.length, rowMatch row (es.getD m []) = false) →
      findMatch row es used e = none := by
  intro es
  induction es with
  | nil => intro _ _ _; rfl
  | cons info rest ih =>
      intro used e hall
      simp only [findMatch]
      have h0 : rowMatch row info = false := by
        have := hall 0 (by simp)
        simpa using this
      rw [h0]
      simp only [Bool.and_false, Bool.false_eq_true, if_false]
      exact ih used (e + 1) fun m hm => by
        have := hall (m + 1) (by simpa using hm)
        simpa using this

theorem buildAux_prefix (expected : List (List Cell)) :
    ∀ (rows : List (List String)) (no : Nat) (acc : List (Nat × Nat)),
      ∃ t, buildMatchedAux expected rows no acc = acc ++ t := by
  intro rows
  induction rows with
  | nil => intro no acc; exact ⟨[], by simp [buildMatchedAux]⟩
  | cons row rest ih =>
      intro no acc
      simp only [buildMatchedAux]
      cases findMatch row expected (acc.map Prod.snd) 0 with
      | some j =>
          obtain ⟨t, ht⟩ := ih (no + 1) (acc ++ [(no, j)])
          exact ⟨(no, j) :: t, by simp [ht]⟩
      | none => exact ih (no + 1) acc

theorem buildAux_mem (expected : List (List Cell)) :
    ∀ (rows : List (List String)) (no : Nat) (acc : List (Nat × Nat))
      (p : Nat × Nat), p ∈ buildMatchedAux expected rows no acc →
      p ∈ acc ∨ (no ≤ p.1 ∧ p.1 - no < rows.length ∧ p.2 < expected.length ∧
        rowMatch (rows.getD (p.1 - no) []) (expected.getD p.2 []) = true) := by
  intro rows
  induction rows with
  | nil => intro no acc p h; exact Or.inl h
  | cons row rest ih =>
      intro no acc p h
      simp only [buildMatchedAux] at h
      cases hf : findMatch row expected (acc.map Prod.snd) 0 with
      | some j =>
          rw [hf] at h
          rcases ih (no + 1) (acc ++ [(no, j)]) p h with hin | hnew
          · rcases List.mem_append.mp hin with hold | hsingle
            · exact Or.inl hold
            · have hp : p = (no, j) := by simpa using hsingle
              subst hp
              obtain ⟨hj, _, hmat, _⟩ := findMatch_spec hf
              exact Or.inr ⟨le_refl _, by simp, hj, by simpa using hmat⟩
          · obtain ⟨h1, h2, h3, h4⟩ := hnew
            refine Or.inr ⟨by omega, by simp; omega, h3, ?_⟩
            have h5 : p.1 - no = (p.1 - (no + 1)) + 1 := by omega
            rw [h5, List.getD_cons_succ]
            exact h4
      | none =>
          rw [hf] at h
          rcases ih (no + 1) acc p h with hin | hnew
          · exact Or.inl hin
          · obtain ⟨h1, h2, h3, h4⟩ := hnew
            refine Or.inr ⟨by omega, by simp; omega, h3, ?_⟩
            have h5 : p.1 - no = (p.1 - (no + 1)) + 1 := by omega
            rw [h5, List.getD_cons_succ]
            exact h4

theorem buildAux_pairwise (expected : List (List Cell)) :
    ∀ (rows : List (List String)) (no : Nat) (acc : List (Nat × Nat)),
      (∀ p ∈ acc, p.1 < no) →
      List.Pairwise (fun p q : Nat × Nat => p.1 < q.1) acc →
      List.Pairwise (fun p q : Nat × Nat => p.1 < q.1)
        (buildMatchedAux expected rows no acc) := by
  intro rows
  induction rows with
  | nil => intro no acc _ hpw; exact hpw
  | cons row rest ih =>
      intro no acc hlt hpw
      simp only [buildMatchedAux]
      cases hf : findMatch row expected (acc.map Prod.snd) 0 with
      | some j =>
          refine ih (no + 1) (acc ++ [(no, j)]) ?_ ?_
          · intro p hp
            rcases List.mem_append.mp hp with hold | hsingle
            · exact Nat.lt_succ_of_lt (hlt p hold)
            · have hp' : p = (no, j) := by simpa using hsingle
              subst hp'
              exact Nat.lt_succ_self no
          · refine List.pairwise_append.mpr ⟨hpw, by simp, ?_⟩
            intro p hp q hq
            have hq' : q = (no, j) := by simpa using hq
            subst hq'
            exact hlt p hp
      | none =>
          exact ih (no + 1) acc (fun p hp => Nat.lt_succ_of_lt (hlt p hp)) hpw

theorem buildAux_val_inj (expected : List (List Cell)) :
    ∀ (rows : List (List String)) (no : Nat) (acc : List (Nat × Nat)),
      (∀ p ∈ acc, ∀ q ∈ acc, p.2 = q.2 → p.1 = q.1) →
      ∀ p ∈ buildMatchedAux expected rows no acc,
        ∀ q ∈ buildMatchedAux expected rows no acc, p.2 = q.2 → p.1 = q.1 := by
  intro rows
  induction rows with
  | nil => intro no acc hinj; exact hinj
  | cons row rest ih =>
      intro no acc hinj
      simp only [buildMatchedAux]
      cases hf : findMatch row expected (acc.map Prod.snd) 0 with
      | some j =>
          refine ih (no + 1) (acc ++ [(no, j)]) ?_
          obtain ⟨_, hcont, _, _⟩ := findMatch_spec hf
          have hnotin : j ∉ acc.map Prod.snd := by
            intro hmem
            rw [containsNat_iff.mpr hmem] at hcont
            cases hcont
          intro p hp q hq hpq
          rcases List.mem_append.mp hp with hpo | hps
          · rcases List.mem_append.mp hq with hqo | hqs
            · exact hinj p hpo q hqo hpq
            · have hq' : q = (no, j) := by simpa using hqs
              subst hq'
              have hj : (no, j).2 ∈ acc.map Prod.snd := by
                rw [← hpq]
                exact List.mem_map_of_mem Prod.snd hpo
              exact absurd hj hnotin
          · have hp' : p = (no, j) := by simpa using hps
            subst hp'
            rcases List.mem_append.mp hq with hqo | hqs
            · have hj : (no, j).2 ∈ acc.map Prod.snd := by
                rw [hpq]
                exact List.mem_map_of_mem Prod.snd hqo
              exact absurd hj hnotin
            · have hq' : q = (no, j) := by simpa using hqs
              subst hq'
              rfl
      | none => exact ih (no + 1) acc hinj

theorem buildAux_greedy (expected : List (List Cell)) :
    ∀ (rows : List (List String)) (no : Nat) (acc : List (Nat × Nat)),
      (∀ p ∈ acc, p.1 < no) →
      ∀ p ∈ buildMatchedAux expected rows no acc, p ∉ acc →
        ∀ e', e' < p.2 →
          rowMatch (rows.getD (p.1 - no) []) (expected.getD e' []) = true →
          ∃ q ∈ buildMatchedAux expected rows no acc, q.1 < p.1 ∧ q.2 = e' := by
  intro rows
  induction rows with
  | nil =>
      intro no acc _ p hp hnp
      exact absurd hp hnp
  | cons row rest ih =>
      intro no acc hlt p hp hnp e' he' hmat
      simp only [buildMatchedAux] at hp ⊢
      cases hf : findMatch row expected (acc.map Prod.snd) 0 with
      | some j =>
          rw [hf] at hp
          by_cases hpj : p = (no, j)
          · subst hpj
            obtain ⟨_, _, _, hmin⟩ := findMatch_spec hf
            rcases hmin e' he' with hcont | hnomat
            · rw [containsNat_iff] at hcont
              obtain ⟨q, hq, hq2⟩ := List.mem_map.mp hcont
              obtain ⟨t, ht⟩ := buildAux_prefix expected rest (no + 1) (acc ++ [(no, j)])
              refine ⟨q, ?_, hlt q hq, hq2⟩
              show q ∈ buildMatchedAux expected rest (no + 1) (acc ++ [(no, j)])
              rw [ht]
              exact List.mem_append_left _ (List.mem_append_left _ hq)
            · rw [show (no, j).1 - no = 0 from by simp, List.getD_cons_zero] at hmat
              rw [hmat] at hnomat
              cases hnomat
          · have hnp' : p ∉ acc ++ [(no, j)] := by
              intro hmem
              rcases List.mem_append.mp hmem with h1 | h2
              · exact hnp h1
              · exact hpj (by simpa using h2)
            have hge : no + 1 ≤ p.1 := by
              rcases buildAux_mem expected rest (no + 1) (acc ++ [(no, j)]) p hp with
                hin | hnew
              · exact absurd hin hnp'
              · exact hnew.1
            have hshift : (row :: rest).getD (p.1 - no) [] =
                rest.getD (p.1 - (no + 1)) [] := by
              have h5 : p.1 - no = (p.1 - (no + 1)) + 1 := by omega
              rw [h5, List.getD_cons_succ]
            rw [hshift] at hmat
            exact ih (no + 1) (acc ++ [(no, j)])
              (by
                intro q hq
                rcases List.mem_append.mp hq with h1 | h2
                · exact Nat.lt_succ_of_lt (hlt q h1)
                · have : q = (no, j) := by simpa using h2
                  subst this
                  exact Nat.lt_succ_self no)
              p hp hnp' e' he' hmat
      | none =>
          rw [hf] at hp
          have hge : no + 1 ≤ p.1 := by
            rcases buildAux_mem expected rest (no + 1) acc p hp with hin | hnew
            · exact absurd hin hnp
            · exact hnew.1
          have hshift : (row :: rest).getD (p.1 - no) [] =
              rest.getD (p.1 - (no + 1)) [] := by
            have h5 : p.1 - no = (p.1 - (no + 1)) + 1 := by omega
            rw [h5, List.getD_cons_succ]
          rw [hshift] at hmat
          exact ih (no + 1) acc (fun q hq => Nat.lt_succ_of_lt (hlt q hq))
            p hp hnp e' he' hmat

theorem pairwise_key_inj {l : List (Nat × Nat)}
    (h : List.Pairwise (fun p q : Nat × Nat => p.1 < q.1) l) :
    ∀ p ∈ l, ∀ q ∈ l, p.1 = q.1 → p = q := by
  induction l with
  | nil => intro p hp; cases hp
  | cons x xs ih =>
      rcases List.pairwise_cons.mp h with ⟨hx, hxs⟩
      intro p hp q hq hpq
      rcases List.mem_cons.mp hp with hp1 | hp2
      · rcases List.mem_cons.mp hq with hq1 | hq2
        · rw [hp1, hq1]
        · subst hp1
          exact absurd (hpq ▸ hx q hq2) (lt_irrefl _)
      · rcases List.mem_cons.mp hq with hq1 | hq2
        · subst hq1
          exact absurd (hpq ▸ hx p hp2) (lt_irrefl _)
        · exact ih hxs p hp2 q hq2 hpq

theorem buildMatched_mem {a : List (List String)} {e : List (List Cell)}
    {p : Nat × Nat} (h : p ∈ buildMatched a e) :
    p.1 < a.length ∧ p.2 < e.length ∧
    rowMatch (a.getD p.1 []) (e.getD p.2 []) = true := by
  rcases buildAux_mem e a 0 [] p h with hin | hnew
  · cases hin
  · obtain ⟨_, h2, h3, h4⟩ := hnew
    exact ⟨by simpa using h2, h3, by simpa using h4⟩

theorem buildMatched_pairwise (a : List (List String)) (e : List (List Cell)) :
    List.Pairwise (fun p q : Nat × Nat => p.1 < q.1) (buildMatched a e) :=
  buildAux_pairwise e a 0 [] (by intro p hp; cases hp) List.Pairwise.nil

theorem buildMatched_val_inj (a : List (List String)) (e : List (List Cell)) :
    ∀ p ∈ buildMatched a e, ∀ q ∈ buildMatched a e, p.2 = q.2 → p.1 = q.1 :=
  buildAux_val_inj e a 0 [] (by intro p hp; cases hp)

theorem buildMatched_key_inj (a : List (List String)) (e : List (List Cell)) :
    ∀ p ∈ buildMatched a e, ∀ q ∈ buildMatched a e, p.1 = q.1 → p.2 = q.2 :=
  fun p hp q hq hpq =>
    congrArg Prod.snd (pairwise_key_inj (buildMatched_pairwise a e) p hp q hq hpq)

theorem buildMatched_greedy (a : List (List String)) (e : List (List Cell)) :
    ∀ p ∈ buildMatched a e, ∀ e', e' < p.2 →
      rowMatch (a.getD p.1 []) (e.getD e' []) = true →
      ∃ q ∈ buildMatched a e, q.1 < p.1 ∧ q.2 = e' := by
  intro p hp e' he' hmat
  exact buildAux_greedy e a 0 [] (by intro q hq; cases hq) p hp
    (by intro hq; cases hq) e' he' (by simpa using hmat)

theorem buildMatched_nil_of_no_match {a : List (List String)}
    {e : List (List Cell)}
    (h : ∀ row ∈ a, ∀ j < e.length, rowMatch row (e.getD j []) = false) :
    buildMatched a e = [] := by
  have aux : ∀ (rows : List (List String)) (no : Nat) (acc : List (Nat × Nat)),
      (∀ row ∈ rows, ∀ j < e.length, rowMatch row (e.getD j []) = false) →
      buildMatchedAux e rows no acc = acc := by
    intro rows
    induction rows with
    | nil => intro no acc _; rfl
    | cons row rest ih =>
        intro no acc hall
        simp only [buildMatchedAux]
        rw [findMatch_none row e (acc.map Prod.snd) 0
          (hall row (List.mem_cons_self row rest))]
        exact ih (no + 1) acc fun r hr => hall r (List.mem_cons_of_mem row hr)
  exact aux a 0 [] h

/-! ## The output loop `emitLoop` -/

theorem emitLoop_nil_matched :
    ∀ (raw : List String) (no : Nat) (em : List String),
      emitLoop [] no raw em = some raw := by
  intro raw
  induction raw with
  | nil => intro no em; rfl
  | cons row rest ih =>
      intro no em
      simp only [emitLoop, List.any_nil, Bool.false_eq_true, if_false, ih,
        Option.map_some']

theorem emitLoop_spec (matched : List (Nat × Nat)) :
    ∀ (raw : List String) (no : Nat) (em out : List String),
      emitLoop matched no raw em = some out →
      out.length = raw.length ∧
      ∀ i < raw.length, out.get? i =
        (if matched.any fun p => p.1 = no + i then em.get? (keyHits matched no i)
         else raw.get? i) := by
  intro raw
  induction raw with
  | nil =>
      intro no em out h
      cases h
      exact ⟨rfl, fun i hi => absurd hi (Nat.not_lt_zero i)⟩
  | cons row rest ih =>
      intro no em out h
      simp only [emitLoop] at h
      cases hkey : matched.any fun p => p.1 = no with
      | true =>
          rw [hkey] at h
          simp only [if_true] at h
          cases em with
          | nil => cases h
          | cons e em' =>
              have h' : (emitLoop matched (no + 1) rest em').map (e :: ·) =
                  some out := h
              cases hrec : emitLoop matched (no + 1) rest em' with
              | none => rw [hrec] at h'; cases h'
              | some out' =>
                  rw [hrec] at h'
                  cases h'
                  obtain ⟨hlen, hget⟩ := ih (no + 1) em' out' hrec
                  refine ⟨by simp [hlen], ?_⟩
                  intro i hi
                  cases i with
                  | zero =>
                      simp only [Nat.add_zero, hkey, if_true, keyHits]
                      rfl
                  | succ i =>
                      have hi' : i < rest.length := by simpa using hi
                      have hstep := hget i hi'
                      have hcond : (no + (i + 1)) = (no + 1) + i := by omega
                      simp only [List.get?_cons_succ, hcond, hstep, keyHits, hkey,
                        if_true]
                      cases hany : matched.any fun p => p.1 = (no + 1) + i with
                      | true => simp [hany, Nat.add_comm 1 (keyHits matched (no + 1) i)]
                      | false => simp [hany]
      | false =>
          rw [hkey] at h
          simp only [Bool.false_eq_true, if_false] at h
          cases hrec : emitLoop matched (no + 1) rest em with
          | none => rw [hrec] at h; cases h
          | some out' =>
              rw [hrec] at h
              cases h
              obtain ⟨hlen, hget⟩ := ih (no + 1) em out' hrec
              refine ⟨by simp [hlen], ?_⟩
              intro i hi
              cases i with
              | zero => simp [Nat.add_zero, hkey]
              | succ i =>
                  have hi' : i < rest.length := by simpa using hi
                  have hstep := hget i hi'
                  have hcond : (no + (i + 1)) = (no + 1) + i := by omega
                  simp only [List.get?_cons_succ, hcond, hstep, keyHits, hkey,
                    Bool.false_eq_true, if_false, Nat.zero_add]

theorem remKeys_mono (no : Nat) :
    ∀ matched : List (Nat × Nat), remKeys (no + 1) matched ≤ remKeys no matched := by
  intro matched
  induction matched with
  | nil => exact le_refl 0
  | cons p ps ih =>
      simp only [remKeys]
      by_cases h1 : no + 1 ≤ p.1
      · rw [if_pos h1, if_pos (by omega)]
        omega
      · rw [if_neg h1]
        by_cases h2 : no ≤ p.1
        · rw [if_pos h2]; omega
        · rw [if_neg h2]; omega

theorem remKeys_succ_lt {no : Nat} :
    ∀ {matched : List (Nat × Nat)}, (matched.any fun p => p.1 = no) = true →
      remKeys (no + 1) matched + 1 ≤ remKeys no matched := by
  intro matched
  induction matched with
  | nil => intro h; cases h
  | cons p ps ih =>
      intro h
      simp only [remKeys]
      rcases List.any_eq_true.mp h with ⟨q, hq, hq1⟩
      rcases List.mem_cons.mp hq with hq' | hq'
      · have hp1 : p.1 = no := by
          rw [← hq']
          simpa using hq1
        rw [if_neg (by omega), if_pos (by omega)]
        have := remKeys_mono no ps
        omega
      · have hps : (ps.any fun p => p.1 = no) = true :=
          List.any_eq_true.mpr ⟨q, hq', hq1⟩
        have := ih hps
        by_cases h1 : no + 1 ≤ p.1
        · rw [if_pos h1, if_pos (by omega)]; omega
        · rw [if_neg h1]
          by_cases h2 : no ≤ p.1
          · rw [if_pos h2]; omega
          · rw [if_neg h2]; omega

theorem remKeys_zero : ∀ matched : List (Nat × Nat),
    remKeys 0 matched = matched.length := by
  intro matched
  induction matched with
  | nil => rfl
  | cons p ps ih =>
      simp [remKeys, ih]
      omega

theorem emitLoop_total (matched : List (Nat × Nat)) :
    ∀ (raw : List String) (no : Nat) (em : List String),
      remKeys no matched ≤ em.length →
      ∃ out, emitLoop matched no raw em = some out := by
  intro raw
  induction raw with
  | nil => intro no em _; exact ⟨[], rfl⟩
  | cons row rest ih =>
      intro no em hle
      simp only [emitLoop]
      cases hkey : matched.any fun p => p.1 = no with
      | true =>
          simp only [if_true]
          have h1 := remKeys_succ_lt hkey
          cases em with
          | nil => simp [remKeys] at hle; omega
          | cons e em' =>
              obtain ⟨out, hout⟩ := ih (no + 1) em' (by simp at hle; omega)
              refine ⟨e :: out, ?_⟩
              show (emitLoop matched (no + 1) rest em').map (e :: ·) =
                some (e :: out)
              rw [hout]
              rfl
      | false =>
          simp only [Bool.false_eq_true, if_false]
          obtain ⟨out, hout⟩ := ih (no + 1) em
            (le_trans (remKeys_mono no matched) hle)
          exact ⟨row :: out, by rw [hout]; rfl⟩

/-! ## `match_table`: destructuring and totality -/

theorem match_table_elim {at_ : List (List String)} {et : List (List Cell)}
    {araw eraw out : List String}
    (h : match_table at_ et araw eraw = some out) :
    ∃ em, mapO (fun i => eraw.get? i)
        (pySortedNat ((buildMatched at_ et).map Prod.snd)) = some em ∧
      emitLoop (buildMatched at_ et) 0 araw em = some out := by
  simp only [match_table] at h
  cases hm : mapO (fun i => eraw.get? i)
      (pySortedNat ((buildMatched at_ et).map Prod.snd)) with
  | none =>
      rw [hm] at h
      exact Option.noConfusion h
  | some em =>
      rw [hm] at h
      exact ⟨em, rfl, h⟩

theorem match_table_total (at_ : List (List String)) (et : List (List Cell))
    (araw eraw : List String) (hlen : et.length ≤ eraw.length) :
    ∃ out, match_table at_ et araw eraw = some out ∧
      out.length = araw.length := by
  have hvals : ∀ v ∈ pySortedNat ((buildMatched at_ et).map Prod.snd),
      v < eraw.length := by
    intro v hv
    have hv' : v ∈ (buildMatched at_ et).map Prod.snd :=
      (List.perm_insertionSort _ _).mem_iff.mp hv
    obtain ⟨p, hp, hp2⟩ := List.mem_map.mp hv'
    have := (buildMatched_mem hp).2.1
    omega
  obtain ⟨em, hem⟩ := mapO_total (fun i => eraw.get? i)
    (pySortedNat ((buildMatched at_ et).map Prod.snd))
    (fun v hv => by
      have hlt := hvals v hv
      exact ⟨eraw.get ⟨v, hlt⟩, List.get?_eq_get hlt⟩)
  have hemlen : em.length = (buildMatched at_ et).length := by
    rw [mapO_length _ hem]
    have hp : List.Perm (pySortedNat ((buildMatched at_ et).map Prod.snd))
        ((buildMatched at_ et).map Prod.snd) := List.perm_insertionSort _ _
    rw [hp.length_eq, List.length_map]
  obtain ⟨out, hout⟩ := emitLoop_total (buildMatched at_ et) araw 0 em
    (by rw [remKeys_zero, hemlen])
  refine ⟨out, ?_, (emitLoop_spec _ araw 0 em out hout).1⟩
  simp only [match_table]
  rw [hem]
  exact hout

/-! ## Total matchings: the sorted value list is `range n` -/

theorem sorted_nodup_mem_range_eq {l : List Nat} {n : Nat}
    (hs : l.Sorted (· ≤ ·)) (hn : l.Nodup) (hmem : ∀ x, x ∈ l ↔ x < n) :
    l = List.range n := by
  have hperm : List.Perm l (List.range n) :=
    List.perm_of_nodup_nodup_toFinset_eq hn (List.nodup_range n) (by
      ext x
      simp [List.mem_toFinset, hmem, List.mem_range])
  exact List.eq_of_perm_of_sorted hperm hs
    (List.Pairwise.imp le_of_lt (List.pairwise_lt_range n))

theorem mem_of_nodup_sub_length {l : List Nat} {n : Nat} (hn : l.Nodup)
    (hsub : ∀ x ∈ l, x < n) (hlen : n ≤ l.length) :
    ∀ x, x < n → x ∈ l := by
  have hsubF : l.toFinset ⊆ Finset.range n := by
    intro x hx
    rw [Finset.mem_range]
    exact hsub x (List.mem_toFinset.mp hx)
  have hcard : (Finset.range n).card ≤ l.toFinset.card := by
    rw [List.toFinset_card_of_nodup hn, Finset.card_range]
    exact hlen
  have heq := Finset.eq_of_subset_of_card_le hsubF hcard
  intro x hx
  have hxF : x ∈ l.toFinset := by
    rw [heq]
    exact Finset.mem_range.mpr hx
  exact List.mem_toFinset.mp hxF

theorem keyHits_all (matched : List (Nat × Nat)) :
    ∀ (i no : Nat),
      (∀ k < i, (matched.any fun p => p.1 = no + k) = true) →
      keyHits matched no i = i := by
  intro i
  induction i with
  | zero => intro no _; rfl
  | succ i ih =>
      intro no hall
      have h0 : (matched.any fun p => p.1 = no) = true := by
        have := hall 0 (Nat.succ_pos i)
        simpa using this
      simp only [keyHits, h0, if_true]
      rw [ih (no + 1) fun k hk => by
        have := hall (k + 1) (by omega)
        have harr : no + (k + 1) = no + 1 + k := by omega
        rw [harr] at this
        exact this]
      omega

/-! ## Block collection and the ignorable-line pushback -/

theorem head?_dropWhile_false {α : Type} {p : α → Bool} :
    ∀ (l : List α) (x : α), (l.dropWhile p).head? = some x → p x = false := by
  intro l
  induction l with
  | nil => intro x h; cases h
  | cons a as ih =>
      intro x h
      rw [List.dropWhile_cons] at h
      cases hpa : p a with
      | true =>
          rw [hpa] at h
          simp only [if_true] at h
          exact ih x h
      | false =>
          rw [hpa] at h
          simp only [Bool.false_eq_true, if_false, List.head?_cons] at h
          cases h
          exact hpa

theorem takeBlock_append :
    ∀ lines : List String, (takeBlock lines).1 ++ (takeBlock lines).2 = lines := by
  intro lines
  induction lines with
  | nil => rfl
  | cons l ls ih =>
      simp only [takeBlock]
      cases hd : strStartsWith l "$ " with
      | true => simp [hd]
      | false => simpa [hd] using ih

theorem splitTrailingIgnorable_spec (block : List String) :
    block = (splitTrailingIgnorable block).1 ++ (splitTrailingIgnorable block).2 ∧
    (∀ l ∈ (splitTrailingIgnorable block).2, is_ignorable l = true) ∧
    (∀ l, (splitTrailingIgnorable block).1.getLast? = some l →
      is_ignorable l = false) := by
  refine ⟨?_, ?_, ?_⟩
  · simp only [splitTrailingIgnorable]
    rw [← List.reverse_append, List.takeWhile_append_dropWhile, List.reverse_reverse]
  · intro l hl
    simp only [splitTrailingIgnorable] at hl
    rw [List.mem_reverse] at hl
    exact List.mem_takeWhile_imp hl
  · intro l hl
    simp only [splitTrailingIgnorable] at hl
    rw [List.getLast?_eq_head?_reverse, List.reverse_reverse] at hl
    exact head?_dropWhile_false _ l hl

theorem collectExpected_eq {lines block rest kept trailing : List String}
    (ht : takeBlock lines = (block, rest))
    (hs : splitTrailingIgnorable block = (kept, trailing)) :
    collectExpected lines = (kept, explodeChars trailing ++ rest) := by
  simp only [collectExpected, ht, hs]

/-! ## Claim theorems (C2 – C7, C9, C10) -/

/-- C2: `match_table`'s row matcher is greedy: taking actual rows in order,
each is matched to the first expected row in declaration order that is not
yet matched and that `rowMatch` accepts (equal row lengths, and each cell
either equal as a literal string or, for a compiled pattern, matching the
actual cell anchored at its start); once matched an expected row is never
reused or reassigned, so the resulting map from actual-row index to
expected-row index is injective in both directions (a partial bijection). -/
theorem match_table_greedy_partial_bijection
    (actual : List (List String)) (expected : List (List Cell)) :
    (∀ p ∈ buildMatched actual expected, ∀ q ∈ buildMatched actual expected,
      p.2 = q.2 → p.1 = q.1) ∧
    (∀ p ∈ buildMatched actual expected, ∀ q ∈ buildMatched actual expected,
      p.1 = q.1 → p.2 = q.2) ∧
    (∀ p ∈ buildMatched actual expected,
      p.1 < actual.length ∧ p.2 < expected.length ∧
      rowMatch (actual.getD p.1 []) (expected.getD p.2 []) = true) ∧
    (∀ p ∈ buildMatched actual expected, ∀ e' < p.2,
      rowMatch (actual.getD p.1 []) (expected.getD e' []) = true →
      ∃ q ∈ buildMatched actual expected, q.1 < p.1 ∧ q.2 = e') :=
  ⟨buildMatched_val_inj actual expected, buildMatched_key_inj actual expected,
   fun _ hp => buildMatched_mem hp, buildMatched_greedy actual expected⟩

/-- Witness for C2 at the permutation example: the pair `(0, 1)` is in the
greedy matching and its rows are related by `rowMatch`. -/
theorem match_table_greedy_partial_bijection_witness :
    (0, 1) ∈ buildMatched [["b"], ["a"]] (toCellTable [["a"], ["b"]]) ∧
    rowMatch ([["b"], ["a"]].getD 0 [])
      ((toCellTable [["a"], ["b"]]).getD 1 []) = true :=
  ⟨by decide,
    ((match_table_greedy_partial_bijection [["b"], ["a"]]
      (toCellTable [["a"], ["b"]])).2.2.1 (0, 1) (by decide)).2.2⟩

/-- C3: every successful `match_table` call returns one output line per
actual raw row; a position whose index is a matched key receives the raw
text of a matched expected row, and every unmatched position receives the
actual raw line verbatim at its original position. -/
theorem match_table_output_composition
    (at_ : List (List String)) (et : List (List Cell))
    (araw eraw out : List String)
    (h : match_table at_ et araw eraw = some out) :
    out.length = araw.length ∧
    ∀ i < araw.length,
      (((buildMatched at_ et).any fun p => p.1 = i) = true →
        ∃ e ∈ (buildMatched at_ et).map Prod.snd, out.get? i = eraw.get? e) ∧
      (((buildMatched at_ et).any fun p => p.1 = i) = false →
        out.get? i = araw.get? i) := by
  obtain ⟨em, hem, hemit⟩ := match_table_elim h
  obtain ⟨hlen, hget⟩ := emitLoop_spec _ araw 0 em out hemit
  refine ⟨hlen, fun i hi => ⟨?_, ?_⟩⟩
  · intro hk
    have hstep := hget i hi
    simp only [Nat.zero_add] at hstep
    rw [hk] at hstep
    simp only [if_true] at hstep
    have hilen : i < out.length := by omega
    obtain ⟨v, hv⟩ : ∃ v, out.get? i = some v :=
      ⟨out.get ⟨i, hilen⟩, List.get?_eq_get hilen⟩
    have hbind : (((pySortedNat ((buildMatched at_ et).map Prod.snd)).get?
        (keyHits (buildMatched at_ et) 0 i)).bind fun e => eraw.get? e) =
        some v := by
      rw [← mapO_get? _ hem, ← hstep, hv]
    obtain ⟨s, hs1, hs2⟩ := Option.bind_eq_some.mp hbind
    have hsmem : s ∈ (buildMatched at_ et).map Prod.snd :=
      (List.perm_insertionSort _ _).mem_iff.mp (List.get?_mem hs1)
    exact ⟨s, hsmem, by rw [hv, ← hs2]⟩
  · intro hk
    have hstep := hget i hi
    simp only [Nat.zero_add] at hstep
    rw [hk] at hstep
    simpa using hstep

/-- Witness for C3 at the permutation example: the output has one line per
actual raw row. -/
theorem match_table_output_composition_witness :
    match_table [["b"], ["a"]] (toCellTable [["a"], ["b"]]) ["b", "a"] ["a", "b"] =
      some ["a", "b"] ∧
    (["a", "b"] : List String).length = (["b", "a"] : List String).length :=
  ⟨by decide,
    (match_table_output_composition [["b"], ["a"]] (toCellTable [["a"], ["b"]])
      ["b", "a"] ["a", "b"] ["a", "b"] (by decide)).1⟩

/-- C4: permutation tolerance — `match_table` matches actual rows
`[["b"],["a"]]` against expected rows `[["a"],["b"]]` completely, and its
output reconciles with the recorded expectation, while `process_command`
(the order-dependent line comparator, `sort_before = false`) fails the same
pair of line sequences. -/
theorem permutation_tolerance_vs_line_comparator :
    buildMatched [["b"], ["a"]] (toCellTable [["a"], ["b"]]) = [(0, 1), (1, 0)] ∧
    match_table [["b"], ["a"]] (toCellTable [["a"], ["b"]]) ["b", "a"] ["a", "b"] =
      some ["a", "b"] ∧
    process_command ["b", "a"] ["a", "b"] false =
      some (["b\n", "a\n"], false) := by
  decide

/-- C5: fixed-width extraction of `"host1  A     3600"` under the header
`"NAME  TYPE  TTL"` yields exactly `["host1","A","3600"]`, every cell free of
surrounding whitespace, with the column offsets `[0, 6, 12]` found by
substring search starting just past the previous header's offset. -/
theorem fixed_width_round_trip :
    table_from_lines ["NAME  TYPE  TTL", "host1  A     3600"]
      "$ ndcli list hosts\n" =
      [["NAME", "TYPE", "TTL"], ["host1", "A", "3600"]] ∧
    headerOffsets "NAME  TYPE  TTL" = [0, 6, 12] ∧
    (["host1", "A", "3600"].all fun c => pyStrip c == c) = true := by
  decide

/-- C6 counterexample: the map-shape split keeps the space after the colon,
so the cell pair is `("created", " 2020-01-01")`, not
`("created", "2020-01-01")` as the claim states. -/
theorem map_shape_space_counterexample :
    table_from_lines ["created: 2020-01-01"] "$ ndcli show x\n" =
      [["created", " 2020-01-01"]] ∧
    ([["created", " 2020-01-01"]] : List (List String)) ≠
      [["created", "2020-01-01"]] := by
  decide

/-- C6 (amended): the map-shape parse of `"created: 2020-01-01"` yields the
cell pair `("created", " 2020-01-01")` — the value keeps the space following
the colon — and after annotation the second cell is the wildcard-any pattern
`.*`, which any literal actual value matches. -/
theorem map_shape_parse_and_annotate :
    table_from_lines ["created: 2020-01-01"] "$ ndcli show x\n" =
      [["created", " 2020-01-01"]] ∧
    add_regex [[Cell.lit "created", Cell.lit " 2020-01-01"]] "$ ndcli show x\n" =
      some [[Cell.lit "created", Cell.pat (Regex.star Regex.dot)]] ∧
    ∀ s : String, cellMatch s (Cell.pat (Regex.star Regex.dot)) = true := by
  refine ⟨by decide, by decide, ?_⟩
  intro s
  obtain ⟨cs⟩ := s
  cases cs with
  | nil => rfl
  | cons c cs => rfl

/-- C7: in `process_command`, every expected line ending in the literal
suffix `" re"` (after stripping newlines) is treated as a regex with the
suffix stripped and matched anchored at the start of the actual line; on a
match the expected pattern line is written and the position passes, on a
mismatch the actual line is written and the run is flagged failed.  In
particular `"^foo.* re"` against `"foobar"` passes with the pattern line in
the output, and `"bar re"` against `"baz"` fails with `"baz"` in the
output. -/
theorem process_command_regex_suffix_spec
    (act exp out : List String) (passed : Bool)
    (h : process_command act exp false = some (out, passed)) :
    (∀ i a e, (zipLongest act exp).get? i = some (a, e) →
      strEndsWith (stripNL e) " re" = true →
      ∃ r, compilePat (strDropRight (stripNL e) 3) = some r ∧
        out.get? i = some (if reMatch r a then stripNL e ++ "\n" else a ++ "\n") ∧
        (reMatch r a = false → passed = false)) ∧
    process_command ["foobar"] ["^foo.* re"] false =
      some (["^foo.* re\n"], true) ∧
    process_command ["baz"] ["bar re"] false = some (["baz\n"], false) := by
  refine ⟨?_, by decide, by decide⟩
  intro i a e hpair hre
  obtain ⟨outs, houts, hout, hpassed⟩ := process_command_elim h
  simp only [Bool.false_eq_true, if_false] at houts
  have hiz : i < (zipLongest act exp).length :=
    (List.get?_eq_some.mp hpair).1
  have hilen : i < outs.length := by
    rw [mapO_length _ houts]
    exact hiz
  obtain ⟨y, hy⟩ : ∃ y, outs.get? i = some y :=
    ⟨outs.get ⟨i, hilen⟩, List.get?_eq_get hilen⟩
  have hget := mapO_get? _ houts i
  rw [hpair, hy] at hget
  have hpp : processPair a e = some y := hget.symm
  obtain ⟨r, hr, hyeq⟩ := processPair_regex_suffix hre hpp
  refine ⟨r, hr, ?_, ?_⟩
  · rw [hout, List.get?_map, hy, hyeq]
    cases hm : reMatch r a with
    | true => simp [hm]
    | false => simp [hm]
  · intro hm
    rw [hpassed]
    have hymem : y ∈ outs := List.get?_mem hy
    have hy2 : y.2 = false := by
      rw [hyeq, if_neg (by simp [hm])]
    cases hall : outs.all Prod.snd with
    | false => rfl
    | true =>
        have := List.all_eq_true.mp hall y hymem
        rw [hy2] at this
        cases this

/-- Witness for C7: the theorem applied to the `"^foo.* re"` example. -/
theorem process_command_regex_suffix_spec_witness :
    process_command ["foobar"] ["^foo.* re"] false =
      some (["^foo.* re\n"], true) :=
  (process_command_regex_suffix_spec ["foobar"] ["^foo.* re"]
    ["^foo.* re\n"] true (by decide)).2.1

/-- C9: `match_table` never aborts on structurally irreconcilable tables:
whenever the expected raw lines cover the expected table, it returns an
output with one line per actual raw row; and when no actual row can match
any expected row, every actual row stays unmatched and the actual raw lines
are returned verbatim — a structural mismatch behaves as an ordinary
comparison mismatch. -/
theorem match_table_structural_mismatch_safe
    (at_ : List (List String)) (et : List (List Cell)) (araw eraw : List String)
    (hlen : et.length ≤ eraw.length) :
    (∃ out, match_table at_ et araw eraw = some out ∧
      out.length = araw.length) ∧
    ((∀ i < at_.length, ∀ j < et.length,
        rowMatch (at_.getD i []) (et.getD j []) = false) →
      match_table at_ et araw eraw = some araw) := by
  refine ⟨match_table_total at_ et araw eraw hlen, ?_⟩
  intro hnone
  have hb : buildMatched at_ et = [] := buildMatched_nil_of_no_match (by
    intro row hrow j hj
    obtain ⟨n, hrg⟩ := List.mem_iff_get.mp hrow
    have hd : at_.getD n.val [] = row := by
      rw [List.getD_eq_get?, List.get?_eq_get n.isLt]
      simpa using hrg
    rw [← hd]
    exact hnone n.val n.isLt j hj)
  simp only [match_table, hb]
  exact emitLoop_nil_matched araw 0 []

/-- Witness for C9: single actual row of width 2 against a single expected
row of width 1 — nothing matches and the actual raw line is echoed. -/
theorem match_table_structural_mismatch_safe_witness :
    match_table [["a", "b"]] (toCellTable [["c"]]) ["x"] ["y"] = some ["x"] :=
  (match_table_structural_mismatch_safe [["a", "b"]] (toCellTable [["c"]])
    ["x"] ["y"] (by decide)).2 (by decide)

/-- C10: in `match_table`'s output the substituted expected raw lines appear
in ascending expected-declaration order — the position of rank `k` among the
matched actual positions receives the raw line of the `k`-th smallest
matched expected index — and consequently, when every actual row matches and
tables and raw line lists have equal sizes, the output equals the expected
raw lines in declaration order. -/
theorem match_table_sorted_substitution
    (at_ : List (List String)) (et : List (List Cell))
    (araw eraw out : List String)
    (h : match_table at_ et araw eraw = some out) :
    (∀ i < araw.length,
      ((buildMatched at_ et).any fun p => p.1 = i) = true →
      out.get? i = ((pySortedNat ((buildMatched at_ et).map Prod.snd)).get?
        (keyHits (buildMatched at_ et) 0 i)).bind fun e => eraw.get? e) ∧
    (araw.length = at_.length → eraw.length = et.length →
      at_.length = et.length →
      (∀ i < at_.length, ((buildMatched at_ et).any fun p => p.1 = i) = true) →
      out = eraw) := by
  obtain ⟨em, hem, hemit⟩ := match_table_elim h
  obtain ⟨hlen, hget⟩ := emitLoop_spec _ araw 0 em out hemit
  have hfirst : ∀ i < araw.length,
      ((buildMatched at_ et).any fun p => p.1 = i) = true →
      out.get? i = ((pySortedNat ((buildMatched at_ et).map Prod.snd)).get?
        (keyHits (buildMatched at_ et) 0 i)).bind fun e => eraw.get? e := by
    intro i hi hk
    have hstep := hget i hi
    simp only [Nat.zero_add] at hstep
    rw [hk] at hstep
    simp only [if_true] at hstep
    rw [hstep]
    exact mapO_get? _ hem _
  refine ⟨hfirst, ?_⟩
  intro h1 h2 h3 hall
  have hpw := buildMatched_pairwise at_ et
  have hkeys_pw : List.Pairwise (· < ·) ((buildMatched at_ et).map Prod.fst) :=
    List.pairwise_map.mpr hpw
  have hkeys_eq : (buildMatched at_ et).map Prod.fst = List.range at_.length := by
    refine sorted_nodup_mem_range_eq
      (List.Pairwise.imp le_of_lt hkeys_pw)
      (List.Pairwise.imp ne_of_lt hkeys_pw) ?_
    intro x
    constructor
    · intro hx
      obtain ⟨p, hp, hpx⟩ := List.mem_map.mp hx
      rw [← hpx]
      exact (buildMatched_mem hp).1
    · intro hx
      obtain ⟨p, hp, hp1⟩ := List.any_eq_true.mp (hall x hx)
      exact List.mem_map.mpr ⟨p, hp, by simpa using hp1⟩
  have hmlen : (buildMatched at_ et).length = at_.length := by
    have := congrArg List.length hkeys_eq
    simpa using this
  have hmnodup : (buildMatched at_ et).Nodup :=
    List.Pairwise.imp (fun hlt => by
      intro heq
      rw [heq] at hlt
      exact lt_irrefl _ hlt) hpw
  have hvals_nodup : ((buildMatched at_ et).map Prod.snd).Nodup := by
    refine List.Nodup.map_on ?_ hmnodup
    intro x hx y hy hxy
    exact pairwise_key_inj hpw x hx y hy
      (buildMatched_val_inj at_ et x hx y hy hxy)
  have hvals_sub : ∀ v ∈ (buildMatched at_ et).map Prod.snd, v < et.length := by
    intro v hv
    obtain ⟨p, hp, hpv⟩ := List.mem_map.mp hv
    rw [← hpv]
    exact (buildMatched_mem hp).2.1
  have hvals_len : ((buildMatched at_ et).map Prod.snd).length = et.length := by
    rw [List.length_map, hmlen, h3]
  have hvals_mem : ∀ v, v ∈ (buildMatched at_ et).map Prod.snd ↔ v < et.length := by
    intro v
    exact ⟨hvals_sub v,
      fun hv => mem_of_nodup_sub_length hvals_nodup hvals_sub
        (le_of_eq hvals_len.symm) v hv⟩
  have hsorted_eq : pySortedNat ((buildMatched at_ et).map Prod.snd) =
      List.range et.length := by
    refine sorted_nodup_mem_range_eq (List.sorted_insertionSort _ _)
      ((List.perm_insertionSort _ _).nodup_iff.mpr hvals_nodup) ?_
    intro x
    have hperm : List.Perm (pySortedNat ((buildMatched at_ et).map Prod.snd))
        ((buildMatched at_ et).map Prod.snd) := List.perm_insertionSort _ _
    rw [hperm.mem_iff]
    exact hvals_mem x
  refine List.ext_get? ?_
  intro idx
  by_cases hidx : idx < araw.length
  · have hkey : ((buildMatched at_ et).any fun p => p.1 = idx) = true :=
      hall idx (by omega)
    have hout := hfirst idx hidx hkey
    have hkh : keyHits (buildMatched at_ et) 0 idx = idx := by
      refine keyHits_all (buildMatched at_ et) idx 0 fun k hk => ?_
      rw [Nat.zero_add]
      exact hall k (by omega)
    rw [hout, hkh, hsorted_eq, List.get?_range (by omega)]
    rfl
  · rw [List.get?_eq_none.mpr (by omega), List.get?_eq_none.mpr (by omega)]

/-- Witness for C10: the permutation example, where all rows match and the
output equals the expected raw lines. -/
theorem match_table_sorted_substitution_witness :
    match_table [["b"], ["a"]] (toCellTable [["a"], ["b"]]) ["b", "a"] ["a", "b"] =
      some ["a", "b"] ∧
    (["a", "b"] : List String) = ["a", "b"] :=
  ⟨by decide,
    (match_table_sorted_substitution [["b"], ["a"]] (toCellTable [["a"], ["b"]])
      ["b", "a"] ["a", "b"] ["a", "b"] (by decide)).2 (by decide) (by decide)
      (by decide) (by decide)⟩

/-- C8 counterexample: the trailing ignorable line `"# c\n"` is excluded
from the block, but the cursor receives its individual characters
(`lines[0:0] = expected_result.pop()` splices a string), not the unchanged
line, so it is not re-attached as a line to the next block's leading edge. -/
theorem collect_expected_pushback_counterexample :
    collectExpected ["x\n", "# c\n", "$ n\n"] =
      (["x\n"], ["#", " ", "c", "\n", "$ n\n"]) ∧
    (["#", " ", "c", "\n", "$ n\n"] : List String) ≠ ["# c\n", "$ n\n"] := by
  decide

/-- C8 (amended): for every directive's collected block, every trailing
ignorable (blank or `#`-comment) line is excluded from the expected block and
pushed back onto the remaining-lines cursor decomposed into its individual
characters (one-character strings) in order, so the emitted text ahead of
the next directive is unchanged; the pushed-back line is not re-attached as
a single line. -/
theorem collect_expected_pushback
    (lines block rest kept trailing : List String)
    (ht : takeBlock lines = (block, rest))
    (hs : splitTrailingIgnorable block = (kept, trailing)) :
    collectExpected lines = (kept, explodeChars trailing ++ rest) ∧
    block = kept ++ trailing ∧
    (∀ l ∈ trailing, is_ignorable l = true) ∧
    (∀ l, kept.getLast? = some l → is_ignorable l = false) ∧
    String.join (explodeChars trailing ++ rest) =
      String.join trailing ++ String.join rest ∧
    block ++ rest = lines := by
  obtain ⟨hsplit, hign, hlast⟩ := splitTrailingIgnorable_spec block
  rw [hs] at hsplit hign hlast
  refine ⟨collectExpected_eq ht hs, hsplit, hign, hlast, ?_, ?_⟩
  · rw [join_append, join_explodeChars]
  · have := takeBlock_append lines
    rw [ht] at this
    exact this

/-- Witness for C8: the concrete pushback of `"# c\n"`, whose spliced
characters re-join to the original text. -/
theorem collect_expected_pushback_witness :
    collectExpected ["x\n", "# c\n", "$ n\n"] =
      (["x\n"], ["#", " ", "c", "\n", "$ n\n"]) ∧
    String.join (["#", " ", "c", "\n", "$ n\n"] : List String) =
      String.join ["# c\n"] ++ String.join ["$ n\n"] :=
  have h := collect_expected_pushback ["x\n", "# c\n", "$ n\n"]
    ["x\n", "# c\n"] ["$ n\n"] ["x\n"] ["# c\n"] (by decide) (by decide)
  ⟨h.1, h.2.2.2.2.1⟩

/-! ## Clean lines: splitting the joined text recovers them -/

theorem cleanLine_decomp {s : String} (h : cleanLine s = true) :
    ∃ b : List Char, s.data = b ++ ['\n'] ∧ ∀ c ∈ b, pyIsLineBreak c = false := by
  unfold cleanLine at h
  simp only [Bool.and_eq_true, Bool.not_eq_true', beq_iff_eq,
    List.all_eq_true] at h
  obtain ⟨⟨hne, hlast⟩, hall⟩ := h
  refine ⟨s.data.dropLast, ?_, fun c hc => by simpa using hall c hc⟩
  exact (List.dropLast_append_getLast? '\n' hlast).symm

theorem join_data (l : List String) (x : String) :
    (String.join (x :: l)).data = x.data ++ (String.join l).data := by
  rw [join_cons, String.data_append]

theorem splitlinesAux_cons_nobreak {c : Char} {rest acc : List Char}
    (hc : pyIsLineBreak c = false) :
    splitlinesAux (c :: rest) acc = splitlinesAux rest (c :: acc) := by
  have hcr : ¬ (c = '\r') := by
    intro h
    rw [h] at hc
    cases hc
  rw [splitlinesAux.eq_def]
  split
  · next heq => cases heq
  · next heq =>
      injection heq with h1 h2
      exact absurd h1 hcr
  · next hno heq =>
      injection heq with h1 h2
      subst h1
      subst h2
      rw [if_neg (by rw [hc]; exact Bool.false_ne_true)]

theorem splitlinesAux_clean {b : List Char}
    (hb : ∀ c ∈ b, pyIsLineBreak c = false) :
    ∀ (rest acc : List Char),
      splitlinesAux (b ++ '\n' :: rest) acc =
        String.mk (acc.reverse ++ b ++ ['\n']) :: splitlinesAux rest [] := by
  induction b with
  | nil =>
      intro rest acc
      simp only [List.nil_append, List.append_nil]
      rfl
  | cons c b' ih =>
      intro rest acc
      have hc : pyIsLineBreak c = false := hb c (List.mem_cons_self c b')
      have hb' : ∀ x ∈ b', pyIsLineBreak x = false := fun x hx =>
        hb x (List.mem_cons_of_mem c hx)
      rw [List.cons_append, splitlinesAux_cons_nobreak hc, ih hb' rest (c :: acc)]
      simp

theorem splitlinesKeep_join {exp : List String}
    (h : ∀ x ∈ exp, cleanLine x = true) :
    splitlinesKeep (String.join exp) = exp := by
  induction exp with
  | nil => rfl
  | cons x xs ih =>
      obtain ⟨b, hxb, hbclean⟩ := cleanLine_decomp (h x (List.mem_cons_self x xs))
      have hdata : (String.join (x :: xs)).data = b ++ '\n' :: (String.join xs).data := by
        rw [join_data, hxb]
        simp
      unfold splitlinesKeep
      rw [hdata, splitlinesAux_clean hbclean]
      have hx : String.mk (List.reverse [] ++ b ++ ['\n']) = x := by
        simp only [List.reverse_nil, List.nil_append]
        conv_rhs => rw [show x = String.mk x.data from rfl, hxb]
      rw [hx]
      rw [show splitlinesAux (String.join xs).data [] = splitlinesKeep (String.join xs)
        from rfl]
      rw [ih fun y hy => h y (List.mem_cons_of_mem x hy)]

theorem pySplitCharAux_clean {b : List Char} (hb : ∀ c ∈ b, ¬ (c = '\n')) :
    ∀ (rest acc : List Char),
      pySplitCharAux '\n' (b ++ '\n' :: rest) acc =
        String.mk (acc.reverse ++ b) :: pySplitCharAux '\n' rest [] := by
  induction b with
  | nil =>
      intro rest acc
      simp [pySplitCharAux]
  | cons c b' ih =>
      intro rest acc
      have hc : ¬ (c = '\n') := hb c (List.mem_cons_self c b')
      have hb' : ∀ x ∈ b', ¬ (x = '\n') := fun x hx =>
        hb x (List.mem_cons_of_mem c hx)
      rw [List.cons_append]
      simp only [pySplitCharAux, if_neg hc]
      rw [ih hb' rest (c :: acc)]
      simp

theorem stripNL_clean {b : List Char} (hb : ∀ c ∈ b, pyIsLineBreak c = false) :
    stripNL (String.mk (b ++ ['\n'])) = String.mk b := by
  have hbn : ∀ c ∈ b, ¬ (c = '\n') := by
    intro c hc he
    have := hb c hc
    rw [he] at this
    cases this
  unfold stripNL
  have hdrop : (b ++ ['\n']).dropWhile (fun c => decide (c = '\n')) = b ++ ['\n'] ∨
      (b = [] ∧ (b ++ ['\n']).dropWhile (fun c => decide (c = '\n')) = []) := by
    cases b with
    | nil => exact Or.inr ⟨rfl, rfl⟩
    | cons c b' =>
        refine Or.inl ?_
        rw [List.cons_append, List.dropWhile_cons,
          if_neg (by simpa using hbn c (List.mem_cons_self c b'))]
  rcases hdrop with hd | ⟨hbnil, hd⟩
  · rw [hd]
    have hrev : (b ++ ['\n']).reverse = '\n' :: b.reverse := by simp
    rw [hrev, List.dropWhile_cons, if_pos (by simp)]
    have : b.reverse.dropWhile (fun c => decide (c = '\n')) = b.reverse := by
      cases hb' : b.reverse with
      | nil => rfl
      | cons d ds =>
          rw [List.dropWhile_cons, if_neg ?_]
          have hd' : d ∈ b := by
            rw [← List.mem_reverse, hb']
            exact List.mem_cons_self d ds
          simpa using hbn d hd'
    rw [this, List.reverse_reverse]
  · subst hbnil
    rw [hd]
    rfl

theorem pySplitChar_join {exp : List String}
    (h : ∀ x ∈ exp, cleanLine x = true) :
    pySplitChar '\n' (String.join exp) = exp.map stripNL ++ [""] := by
  induction exp with
  | nil => rfl
  | cons x xs ih =>
      obtain ⟨b, hxb, hbclean⟩ := cleanLine_decomp (h x (List.mem_cons_self x xs))
      have hbn : ∀ c ∈ b, ¬ (c = '\n') := by
        intro c hc he
        have := hbclean c hc
        rw [he] at this
        cases this
      have hdata : (String.join (x :: xs)).data = b ++ '\n' :: (String.join xs).data := by
        rw [join_data, hxb]
        simp
      unfold pySplitChar
      rw [hdata, pySplitCharAux_clean hbn]
      have hx : String.mk (List.reverse [] ++ b) = stripNL x := by
        simp only [List.reverse_nil, List.nil_append]
        rw [show x = String.mk x.data from rfl, hxb, stripNL_clean hbclean]
      rw [hx]
      rw [show pySplitCharAux '\n' (String.join xs).data [] =
        pySplitChar '\n' (String.join xs) from rfl]
      rw [ih fun y hy => h y (List.mem_cons_of_mem x hy)]
      simp

theorem stripNL_append_newline {x : String} (h : cleanLine x = true) :
    stripNL x ++ "\n" = x := by
  obtain ⟨b, hxb, hbclean⟩ := cleanLine_decomp h
  rw [show x = String.mk x.data from rfl, hxb, stripNL_clean hbclean]
  exact strMk_append b ['\n']

/-! ## `table_from_lines`: a trailing ignorable line is irrelevant, and the
table never has more rows than input lines -/

theorem table_from_lines_append_ignorable {ls : List String} {ig : String}
    (hig : is_ignorable ig = true) (cmd : String) :
    table_from_lines (ls ++ [ig]) cmd = table_from_lines ls cmd := by
  unfold table_from_lines
  by_cases hmap : generates_map cmd = true
  · rw [if_pos hmap, if_pos hmap, List.filter_append]
    simp [hig]
  · rw [if_neg hmap, if_neg hmap]
    by_cases htab : (strContains cmd " -H" || strContains cmd "dump zone") = true
    · rw [if_pos htab, if_pos htab, List.filter_append]
      simp [hig]
    · rw [if_neg htab, if_neg htab]
      cases hdrop : ls.dropWhile is_ignorable with
      | nil =>
          have : (ls ++ [ig]).dropWhile is_ignorable = [] := by
            rw [List.dropWhile_append, hdrop]
            simp [hig]
          rw [this]
      | cons l₀ rest =>
          have hne : ls.dropWhile is_ignorable ≠ [] := by rw [hdrop]; simp
          have : (ls ++ [ig]).dropWhile is_ignorable =
              (l₀ :: rest) ++ [ig] := by
            rw [List.dropWhile_append]
            simp only [hdrop]
            rfl
          rw [this]
          simp [List.filter_cons, List.filter_append, hig]

theorem table_from_lines_length_le (ls : List String) (cmd : String) :
    (table_from_lines ls cmd).length ≤ ls.length := by
  unfold table_from_lines
  by_cases hmap : generates_map cmd = true
  · rw [if_pos hmap, List.length_map]
    exact le_trans (List.length_filter_le _ _) (le_refl _)
  · rw [if_neg hmap]
    by_cases htab : (strContains cmd " -H" || strContains cmd "dump zone") = true
    · rw [if_pos htab, List.length_map]
      exact le_trans (List.length_filter_le _ _) (le_refl _)
    · rw [if_neg htab]
      cases hdrop : ls.dropWhile is_ignorable with
      | nil => simp
      | cons l₀ rest =>
          have h1 : ((l₀ :: rest).filter fun l => !is_ignorable l).length ≤
              (l₀ :: rest).length := List.length_filter_le _ _
          have h2 : (l₀ :: rest).length ≤ ls.length := by
            rw [← hdrop]
            exact (List.dropWhile_sublist is_ignorable).length_le
          simpa using le_trans h1 h2

/-! ## Equal tables match identically -/

theorem selfMatches_get :
    ∀ {T : List (List String)} {et : List (List Cell)},
      selfMatches T et = true →
      ∀ k row, T.get? k = some row →
        ∃ cells, et.get? k = some cells ∧ rowMatch row cells = true := by
  intro T
  induction T with
  | nil => intro et _ k row hk; cases hk
  | cons r T' ih =>
      intro et hsm k row hk
      cases et with
      | nil =>
          exfalso
          simp [selfMatches] at hsm
      | cons c et' =>
          simp only [selfMatches, List.length_cons, List.zip_cons_cons,
            List.all_cons, Bool.and_eq_true, decide_eq_true_eq] at hsm
          obtain ⟨hle, hrm, hall⟩ := hsm
          have hsm' : selfMatches T' et' = true := by
            simp only [selfMatches, Bool.and_eq_true, decide_eq_true_eq]
            exact ⟨by omega, hall⟩
          cases k with
          | zero =>
              have hr : r = row := by simpa using hk
              exact ⟨c, rfl, hr ▸ hrm⟩
          | succ k' =>
              have hk' : T'.get? k' = some row := by simpa using hk
              exact ih hsm' k' row hk'

theorem idPairs_map_snd (n : Nat) :
    (idPairs n).map Prod.snd = List.range n := by
  unfold idPairs
  rw [List.map_map]
  have hcomp : (Prod.snd ∘ fun i : Nat => (i, i)) = id := rfl
  rw [hcomp, List.map_id]

theorem idPairs_succ (n : Nat) :
    idPairs (n + 1) = idPairs n ++ [(n, n)] := by
  simp [idPairs, List.range_succ]

theorem findMatch_id (row : List String) (used : List Nat) (k : Nat)
    (hused : ∀ x, x ∈ used ↔ x < k) :
    ∀ (es : List (List Cell)) (e : Nat), e ≤ k → ∀ cells,
      es.get? (k - e) = some cells → rowMatch row cells = true →
      findMatch row es used e = some k := by
  intro es
  induction es with
  | nil => intro e _ cells h _; cases h
  | cons info rest ih =>
      intro e hle cells hget hmatch
      rcases Nat.eq_or_lt_of_le hle with heq | hlt
      · subst heq
        rw [Nat.sub_self] at hget
        have hinfo : info = cells := by
          simpa using hget
      -- here e = k
        simp only [findMatch]
        rw [if_pos ?_]
        have hnot : used.contains e = false := by
          cases hcont : used.contains e with
          | false => rfl
          | true =>
              have := containsNat_iff.mp hcont
              rw [hused] at this
              omega
        rw [hnot, hinfo, hmatch]
        rfl
      · have hcont : used.contains e = true :=
          containsNat_iff.mpr ((hused e).mpr hlt)
        simp only [findMatch]
        rw [if_neg (by rw [hcont]; simp)]
        refine ih (e + 1) (by omega) cells ?_ hmatch
        have harr : k - e = (k - (e + 1)) + 1 := by omega
        rw [harr] at hget
        simpa using hget

theorem buildMatched_self {T : List (List String)} {et : List (List Cell)}
    (hsm : ∀ k row, T.get? k = some row →
      ∃ cells, et.get? k = some cells ∧ rowMatch row cells = true) :
    buildMatched T et = idPairs T.length := by
  have aux : ∀ (todo : List (List String)) (k : Nat), k ≤ T.length →
      T.drop k = todo →
      buildMatchedAux et todo k (idPairs k) = idPairs T.length := by
    intro todo
    induction todo with
    | nil =>
        intro k hk hdrop
        have hk' : T.length ≤ k := by
          rw [← List.drop_eq_nil_iff_le, hdrop]
        have : k = T.length := by omega
        rw [this]
        rfl
    | cons row rest ih =>
        intro k hk hdrop
        have hget : T.get? k = some row := by
          have := List.get?_drop T k 0
          rw [hdrop] at this
          simpa using this.symm
        have hklt : k < T.length := List.get?_eq_some.mp hget |>.1
        have hdrop' : T.drop (k + 1) = rest := by
          have : T.drop (k + 1) = (T.drop k).drop 1 := by
            rw [List.drop_drop, Nat.add_comm]
          rw [this, hdrop]
          rfl
        obtain ⟨cells, hcells, hmatch⟩ := hsm k row hget
        have hgetcell : et.get? (k - 0) = some cells := by
          rw [Nat.sub_zero]
          exact hcells
        simp only [buildMatchedAux]
        rw [idPairs_map_snd,
          findMatch_id row (List.range k) k (fun x => List.mem_range)
            et 0 (Nat.zero_le k) cells hgetcell hmatch]
        show buildMatchedAux et rest (k + 1) (idPairs k ++ [(k, k)]) =
          idPairs T.length
        rw [← idPairs_succ]
        exact ih (k + 1) (by omega) hdrop'
  exact aux T 0 (Nat.zero_le _) rfl

theorem idPairs_any_key (n no : Nat) :
    ((idPairs n).any fun p => p.1 = no) = decide (no < n) := by
  cases hlt : decide (no < n) with
  | true =>
      rw [List.any_eq_true.mpr ⟨(no, no), ?_, by simp⟩]
      exact List.mem_map.mpr ⟨no, List.mem_range.mpr (by simpa using hlt), rfl⟩
  | false =>
      rw [List.any_eq_false.mpr ?_]
      intro p hp
      obtain ⟨i, hi, hpi⟩ := List.mem_map.mp hp
      rw [← hpi]
      simp only [decide_eq_true_iff]
      intro he
      rw [he] at hi
      have := List.mem_range.mp hi
      simp at hlt
      omega

theorem mapO_append {α β : Type} (f : α → Option β) :
    ∀ (l₁ l₂ : List α),
      mapO f (l₁ ++ l₂) =
        (mapO f l₁).bind fun ys₁ => (mapO f l₂).map fun ys₂ => ys₁ ++ ys₂ := by
  intro l₁
  induction l₁ with
  | nil =>
      intro l₂
      show mapO f l₂ =
        (some []).bind fun ys₁ => (mapO f l₂).map fun ys₂ => ys₁ ++ ys₂
      cases mapO f l₂ <;> rfl
  | cons x xs ih =>
      intro l₂
      rw [List.cons_append]
      cases hfx : f x with
      | none =>
          show (match f x with
            | none => none
            | some y => (mapO f (xs ++ l₂)).map (y :: ·)) = _
          rw [hfx]
          show (none : Option (List β)) =
            (match f x with
              | none => none
              | some y => (mapO f xs).map (y :: ·)).bind
                fun ys₁ => (mapO f l₂).map fun ys₂ => ys₁ ++ ys₂
          rw [hfx]
          rfl
      | some y =>
          show (match f x with
            | none => none
            | some y => (mapO f (xs ++ l₂)).map (y :: ·)) = _
          rw [hfx]
          show (mapO f (xs ++ l₂)).map (y :: ·) =
            (match f x with
              | none => none
              | some y => (mapO f xs).map (y :: ·)).bind
                fun ys₁ => (mapO f l₂).map fun ys₂ => ys₁ ++ ys₂
          rw [hfx, ih l₂]
          cases mapO f xs with
          | none => rfl
          | some ys =>
              cases mapO f l₂ with
              | none => rfl
              | some ys₂ => rfl

theorem mapO_get_range (l : List String) :
    ∀ (n : Nat), n ≤ l.length →
      mapO (fun i => l.get? i) (List.range n) = some (l.take n) := by
  intro n
  induction n with
  | zero => intro _; rfl
  | succ n ih =>
      intro hle
      rw [List.range_succ, mapO_append, ih (by omega)]
      obtain ⟨v, hv⟩ : ∃ v, l.get? n = some v :=
        ⟨_, List.get?_eq_get (by omega)⟩
      have hmap1 : mapO (fun i => l.get? i) [n] = some [v] := by
        simp only [mapO, hv]
        rfl
      rw [hmap1]
      show some (l.take n ++ [v]) = some (l.take (n + 1))
      rw [List.take_succ, ← List.get?_eq_getElem?, hv]
      rfl

theorem emitLoop_idPairs (n : Nat) :
    ∀ (rawTail : List String) (no : Nat),
      emitLoop (idPairs n) no rawTail (rawTail.take (n - no)) = some rawTail := by
  intro rawTail
  induction rawTail with
  | nil => intro no; rfl
  | cons h t ih =>
      intro no
      simp only [emitLoop, idPairs_any_key]
      by_cases hlt : no < n
      · rw [if_pos (by simpa using hlt)]
        have harr : n - no = (n - (no + 1)) + 1 := by omega
        rw [harr, List.take_succ_cons]
        show (emitLoop (idPairs n) (no + 1) t
            (List.take (n - (no + 1)) t)).map (h :: ·) = some (h :: t)
        rw [ih (no + 1)]
        rfl
      · rw [if_neg (by simpa using hlt)]
        have h0 : n - no = 0 := by omega
        have h1 : n - (no + 1) = 0 := by omega
        rw [h0, List.take_zero]
        have := ih (no + 1)
        rw [h1, List.take_zero] at this
        rw [this]
        rfl

theorem match_table_self (T : List (List String)) (et : List (List Cell))
    (raw : List String) (hsm : selfMatches T et = true)
    (hlen : T.length ≤ raw.length) :
    match_table T et raw raw = some raw := by
  simp only [match_table, buildMatched_self (selfMatches_get hsm), idPairs_map_snd]
  have hsorted : pySortedNat (List.range T.length) = List.range T.length :=
    List.Sorted.insertionSort_eq
      (List.Pairwise.imp le_of_lt (List.pairwise_lt_range _))
  rw [hsorted, mapO_get_range raw T.length hlen]
  have := emitLoop_idPairs T.length raw 0
  rw [Nat.sub_zero] at this
  rw [show (0 : Nat) = 0 from rfl]
  exact this

/-! ## The `run_test` byte-identity layer (C1) -/

theorem match_table_self_directive {exp : List String} {l : String}
    {et : List (List Cell)}
    (hclean : ∀ x ∈ exp, cleanLine x = true)
    (hself : selfMatches (actualTableFor (String.join exp) l) et = true) :
    match_table (actualTableFor (String.join exp) l) et
      (splitlinesKeep (String.join exp)) exp = some exp := by
  rw [splitlinesKeep_join hclean]
  refine match_table_self _ _ _ hself ?_
  unfold actualTableFor
  by_cases hshape : (generates_table l || generates_map l) = true
  · rw [if_pos hshape, pySplitChar_join hclean]
    have hig : is_ignorable "" = true := by decide
    rw [table_from_lines_append_ignorable hig l]
    have h1 := table_from_lines_length_le (exp.map stripNL) l
    rw [List.length_map] at h1
    exact h1
  · rw [if_neg hshape, splitlinesKeep_join hclean, List.length_map]

theorem processPair_clean_fst {x : String} (hcx : cleanLine x = true)
    {y : String × Bool} (h : processPair (stripNL x) x = some y) : y.1 = x := by
  simp only [processPair] at h
  by_cases hre : strEndsWith (stripNL x) " re" = true
  · rw [if_pos hre] at h
    cases hc : compilePat (strDropRight (stripNL x) 3) with
    | none =>
        rw [hc] at h
        exact Option.noConfusion h
    | some r =>
        simp only [hc] at h
        by_cases hm : reMatch r (stripNL x) = true
        · rw [if_pos hm] at h
          rw [← Option.some.inj h]
          exact stripNL_append_newline hcx
        · rw [if_neg hm] at h
          rw [← Option.some.inj h]
          exact stripNL_append_newline hcx
  · rw [if_neg hre] at h
    rw [← Option.some.inj h]
    exact stripNL_append_newline hcx

theorem mapO_processPair_fst {exp : List String}
    (hc : ∀ x ∈ exp, cleanLine x = true) :
    ∀ {outs : List (String × Bool)},
      mapO (fun p : String × String => processPair p.1 p.2)
        (zipLongest (exp.map stripNL) exp) = some outs →
      outs.map Prod.fst = exp := by
  induction exp with
  | nil =>
      intro outs h
      have h' : some ([] : List (String × Bool)) = some outs := h
      rw [← Option.some.inj h']
      rfl
  | cons x xs ih =>
      intro outs h
      rw [List.map_cons] at h
      simp only [zipLongest, mapO] at h
      cases hp : processPair (stripNL x) x with
      | none =>
          simp only [hp] at h
          exact Option.noConfusion h
      | some y =>
          simp only [hp] at h
          cases ho : mapO (fun p : String × String => processPair p.1 p.2)
              (zipLongest (xs.map stripNL) xs) with
          | none =>
              rw [ho] at h
              exact Option.noConfusion h
          | some outs' =>
              rw [ho] at h
              have houts : y :: outs' = outs := Option.some.inj h
              rw [← houts, List.map_cons,
                processPair_clean_fst (hc x (List.mem_cons_self x xs)) hp,
                ih (fun z hz => hc z (List.mem_cons_of_mem x hz)) ho]

theorem process_out_nosort {exp : List String}
    (hc : ∀ x ∈ exp, cleanLine x = true) {out : List String} {passed : Bool}
    (h : process_command (exp.map stripNL) exp false = some (out, passed)) :
    out = exp := by
  unfold process_command at h
  simp only [Bool.false_eq_true, if_false] at h
  cases ho : mapO (fun p : String × String => processPair p.1 p.2)
      (zipLongest (exp.map stripNL) exp) with
  | none =>
      rw [ho] at h
      exact Option.noConfusion h
  | some outs =>
      rw [ho] at h
      have hpair := Option.some.inj h
      have hout : outs.map Prod.fst = out := congrArg Prod.fst hpair
      rw [← hout, mapO_processPair_fst hc ho]

theorem mapO_processPair_nore :
    ∀ {a e : List String}, a.length = e.length →
      (∀ x ∈ e, strEndsWith (stripNL x) " re" = false) →
      ∃ outs, mapO (fun p : String × String => processPair p.1 p.2)
          (zipLongest a e) = some outs ∧
        outs.map Prod.fst = a.map (· ++ "\n") := by
  intro a
  induction a with
  | nil =>
      intro e hlen _
      cases e with
      | nil => exact ⟨[], rfl, rfl⟩
      | cons y ys => simp at hlen
  | cons x xs ih =>
      intro e hlen hre
      cases e with
      | nil => simp at hlen
      | cons y ys =>
          have hlen' : xs.length = ys.length := by simpa using hlen
          have hrey : strEndsWith (stripNL y) " re" = false :=
            hre y (List.mem_cons_self y ys)
          obtain ⟨outs, ho, hf⟩ :=
            ih hlen' fun z hz => hre z (List.mem_cons_of_mem y hz)
          have hp : processPair x y = some (x ++ "\n", decide (x = stripNL y)) := by
            simp only [processPair]
            rw [if_neg (by rw [hrey]; exact Bool.false_ne_true)]
          refine ⟨(x ++ "\n", decide (x = stripNL y)) :: outs, ?_, ?_⟩
          · simp only [zipLongest, mapO, hp, ho]
            rfl
          · rw [List.map_cons, hf, List.map_cons]

theorem map_stripNL_newline {exp : List String}
    (hc : ∀ x ∈ exp, cleanLine x = true) :
    (exp.map stripNL).map (· ++ "\n") = exp := by
  rw [List.map_map]
  have h : ∀ x ∈ exp, ((· ++ "\n") ∘ stripNL) x = id x := fun x hx =>
    stripNL_append_newline (hc x hx)
  rw [List.map_congr_left h, List.map_id]

theorem process_out_sorted {exp : List String}
    (hc : ∀ x ∈ exp, cleanLine x = true)
    (hsorted : pySortStr (exp.map stripNL) = exp.map stripNL)
    (hre : ∀ x ∈ exp, strEndsWith (stripNL x) " re" = false)
    {out : List String} {passed : Bool}
    (h : process_command (exp.map stripNL) exp true = some (out, passed)) :
    out = exp := by
  unfold process_command at h
  simp only [eq_self_iff_true, if_true] at h
  rw [hsorted] at h
  have hlen : (exp.map stripNL).length = (pySortStr exp).length := by
    rw [List.length_map]
    unfold pySortStr
    exact ((List.perm_insertionSort
      (fun a b : String => strLtb b.data a.data = false) exp).length_eq).symm
  have hre' : ∀ x ∈ pySortStr exp, strEndsWith (stripNL x) " re" = false := by
    intro x hx
    unfold pySortStr at hx
    exact hre x ((List.perm_insertionSort
      (fun a b : String => strLtb b.data a.data = false) exp).mem_iff.mp hx)
  obtain ⟨outs, ho, hf⟩ := mapO_processPair_nore hlen hre'
  rw [ho] at h
  have hpair := Option.some.inj h
  have hout : outs.map Prod.fst = out := congrArg Prod.fst hpair
  rw [← hout, hf, map_stripNL_newline hc]

theorem get_cat_input_append (word : String) :
    ∀ lines : List String,
      (get_cat_input lines word).2.1 ++ (get_cat_input lines word).2.2 = lines := by
  intro lines
  induction lines with
  | nil => rfl
  | cons l ls ih =>
      simp only [get_cat_input]
      by_cases hl : l = word ++ "\n"
      · rw [if_pos hl]
        rfl
      · rw [if_neg hl]
        cases hg : get_cat_input ls word with
        | mk inp p =>
            cases p with
            | mk echo rest =>
                rw [hg] at ih
                show (l :: echo) ++ rest = l :: ls
                rw [List.cons_append]
                exact congrArg (l :: ·) ih

theorem collect_join {lines exp rest' : List String}
    (h : collectExpected lines = (exp, rest')) :
    String.join exp ++ String.join rest' = String.join lines := by
  have hb : takeBlock lines = ((takeBlock lines).1, (takeBlock lines).2) := rfl
  have hs : splitTrailingIgnorable (takeBlock lines).1 =
      ((splitTrailingIgnorable (takeBlock lines).1).1,
       (splitTrailingIgnorable (takeBlock lines).1).2) := rfl
  rw [collectExpected_eq hb hs] at h
  injection h with h1 h2
  subst h1
  subst h2
  rw [join_append, join_explodeChars]
  have hsplit := (splitTrailingIgnorable_spec (takeBlock lines).1).1
  calc String.join (splitTrailingIgnorable (takeBlock lines).1).1 ++
        (String.join (splitTrailingIgnorable (takeBlock lines).1).2 ++
          String.join (takeBlock lines).2)
      = String.join ((splitTrailingIgnorable (takeBlock lines).1).1 ++
          (splitTrailingIgnorable (takeBlock lines).1).2) ++
          String.join (takeBlock lines).2 := by
        rw [join_append, String.append_assoc]
    _ = String.join (takeBlock lines).1 ++ String.join (takeBlock lines).2 := by
        rw [← hsplit]
    _ = String.join lines := by
        rw [← join_append, takeBlock_append]

theorem run_test_loop_bytes {oracle : Oracle} {lines : List String}
    (hg : Good oracle lines) :
    ∀ (fuel : Nat) (out : List String),
      run_test_loop oracle fuel lines = some out →
      String.join out = String.join lines := by
  induction hg with
  | nil =>
      intro fuel out h
      cases fuel with
      | zero => exact Option.noConfusion h
      | succ fuel =>
          have h' : some ([] : List String) = some out := h
          rw [← Option.some.inj h']
  | echo l rest h1 h2 _ ih =>
      intro fuel out h
      cases fuel with
      | zero => exact Option.noConfusion h
      | succ fuel =>
          simp only [run_test_loop, h1, Bool.false_eq_true, if_false, h2,
            Option.bind_eq_bind, Option.some_bind] at h
          cases hr : run_test_loop oracle fuel rest with
          | none => rw [hr] at h; exact Option.noConfusion h
          | some tail =>
              rw [hr] at h
              have hout : l :: ([] ++ tail) = out := Option.some.inj h
              rw [← hout, List.nil_append, join_cons, join_cons, ih fuel tail hr]
  | ndcli l rest exp rest' et h1 h2 h3 hcol hclean horacle hannot hself _ ih =>
      intro fuel out h
      cases fuel with
      | zero => exact Option.noConfusion h
      | succ fuel =>
          simp only [run_test_loop, h1, Bool.false_eq_true, if_false, h2, if_true,
            hcol, h3, horacle, hannot, Option.bind_eq_bind, Option.some_bind,
            match_table_self_directive hclean hself] at h
          cases hr : run_test_loop oracle fuel rest' with
          | none => rw [hr] at h; exact Option.noConfusion h
          | some tail =>
              rw [hr] at h
              have hout : l :: ([] ++ (exp ++ tail)) = out := Option.some.inj h
              rw [← hout, List.nil_append, join_cons, join_cons, join_append,
                ih fuel tail hr, collect_join hcol]
  | shell l rest exp rest' h1 h2 h3 hcol hclean hsys hpdns _ ih =>
      intro fuel out h
      cases fuel with
      | zero => exact Option.noConfusion h
      | succ fuel =>
          simp only [run_test_loop, h1, Bool.false_eq_true, if_false, h2, if_true,
            hcol, h3, hsys, Option.bind_eq_bind, Option.some_bind] at h
          cases hp : process_command (exp.map stripNL) exp
              (is_pdns_query (stripNL l)) with
          | none => rw [hp] at h; exact Option.noConfusion h
          | some pr =>
              obtain ⟨out₁, passed⟩ := pr
              rw [hp] at h
              have hfst : out₁ = exp := by
                cases hpq : is_pdns_query (stripNL l) with
                | false =>
                    rw [hpq] at hp
                    exact process_out_nosort hclean hp
                | true =>
                    rw [hpq] at hp
                    obtain ⟨hs, hr⟩ := hpdns hpq
                    exact process_out_sorted hclean hs hr hp
              cases hr : run_test_loop oracle fuel rest' with
              | none => rw [hr] at h; exact Option.noConfusion h
              | some tail =>
                  rw [hr] at h
                  have hout : l :: (out₁ ++ tail) = out := Option.some.inj h
                  rw [← hout, hfst, join_cons, join_cons, join_append,
                    ih fuel tail hr, collect_join hcol]
  | cat l rest word line' inp echoed rest₁ exp rest' et h1 hsplit hget h2 h3 hcol
      hclean horacle hannot hself _ ih =>
      intro fuel out h
      cases fuel with
      | zero => exact Option.noConfusion h
      | succ fuel =>
          simp only [run_test_loop, h1, if_true, hsplit, hget, h2, hcol, h3,
            horacle, hannot, Option.bind_eq_bind, Option.some_bind,
            match_table_self_directive hclean hself] at h
          cases hr : run_test_loop oracle fuel rest' with
          | none => rw [hr] at h; exact Option.noConfusion h
          | some tail =>
              rw [hr] at h
              have hout : l :: ((echoed ++ exp) ++ tail) = out := Option.some.inj h
              have hrest : echoed ++ rest₁ = rest := by
                have := get_cat_input_append word rest
                rw [hget] at this
                exact this
              rw [← hout, join_cons, join_cons, join_append, join_append,
                ih fuel tail hr, String.append_assoc, collect_join hcol,
                ← hrest, join_append]

/-- C1 (counterexample): transcripts on which every directive's actual output
equals its recorded expected output, yet `run_test` rewrites the transcript
and the test fails.  (1) `dsLines`: the oracle returns exactly the joined
expected block, but the `list zone … ds` annotation turns cells of the
expected table into `\d`-patterns that reject the recorded row `q  B  7  z`;
the greedy matcher then leaves that expected row unassigned while row
`a  B  x  d` is emitted twice.  (2) `nlLines`: the shell output equals the
block's one (stripped) line, but the recorded line is unterminated and the
rewriter appends a newline.  (3) `digLines`: the dig output lines equal the
recorded lines, but the comparison sorts both sides in place and the block
is unsorted, so the rewrite reorders it.  (4) `crLines`: the output is
byte-identical, but the recorded line's interior `'\r'` makes `splitlines`
(which splits on `'\r'`) disagree with the `'\n'`-split used for the table,
desynchronising the emit loop.  These force the respective hypotheses of the
amended statement. -/
theorem run_test_echo_counterexample :
    (dsOracle.runCommand "$ ndcli list zone z ds\n" none =
       String.join ["C0 C1 C2 C3\n", "a  B  x  d\n", "q  B  7  z\n"] ∧
     collectExpected dsLines.tail =
       (["C0 C1 C2 C3\n", "a  B  x  d\n", "q  B  7  z\n"], []) ∧
     run_test_loop dsOracle 10 dsLines =
       some ["$ ndcli list zone z ds\n", "C0 C1 C2 C3\n",
         "a  B  x  d\n", "a  B  x  d\n"] ∧
     run_test dsOracle 10 dsLines = some false) ∧
    (nlOracle.runSystem "true" = ["ok"].map stripNL ∧
     run_test nlOracle 10 nlLines = some false) ∧
    (digOracle.runSystem "dig x" = ["b\n", "a\n"].map stripNL ∧
     run_test digOracle 10 digLines = some false) ∧
    (crOracle.runCommand "$ ndcli show x\n" none = String.join ["a\rb\n"] ∧
     run_test crOracle 10 crLines = some false) :=
  ⟨⟨rfl, rfl, by decide, by decide⟩, ⟨rfl, by decide⟩, ⟨rfl, by decide⟩,
   ⟨rfl, by decide⟩⟩

/-- C1 (amended): on a `Good` transcript — every expected-block line clean
(newline-terminated, no interior line break: the shape text-mode `readlines`
produces); every ndcli directive, plain or heredoc, producing output
byte-identical to its collected expected block, with a regex annotation that
succeeds and whose resulting table still accepts every one of its own
recorded rows (so annotation-firing listings such as `dump zone` SOA rows or
`show` created/modified rows are covered); every shell directive producing
exactly the expected block's stripped lines and, if it is a dig/drill query
(whose comparison sorts both sides), having an already-sorted block without
`" re"` lines — whenever the driver loop terminates, the bytes it writes
equal the input transcript's bytes and `run_test` reports a pass. -/
theorem run_test_byte_identity {oracle : Oracle} {lines : List String}
    (hg : Good oracle lines) (fuel : Nat) (out : List String)
    (h : run_test_loop oracle fuel lines = some out) :
    String.join out = String.join lines ∧
    run_test oracle fuel lines = some true := by
  have hb := run_test_loop_bytes hg fuel out h
  refine ⟨hb, ?_⟩
  unfold run_test
  rw [h]
  simp [hb]

theorem run_test_byte_identity_witness :
    String.join showLines = String.join showLines ∧
    run_test showOracle 10 showLines = some true := by
  have hg : Good showOracle showLines :=
    Good.ndcli "$ ndcli show zone z\n"
      ["created: 2020-01-01 10:00:00\n", "modified: 2020-01-01 10:00:00\n"]
      ["created: 2020-01-01 10:00:00\n", "modified: 2020-01-01 10:00:00\n"] []
      [[Cell.lit "created", Cell.pat (Regex.star Regex.dot)],
       [Cell.lit "modified", Cell.pat (Regex.star Regex.dot)]]
      (by decide) (by decide) (by decide) (by decide)
      (by decide) (by decide) (by decide) (by decide) Good.nil
  exact run_test_byte_identity hg 10 showLines (by decide)

end RunTest
